import Mathlib

/-!
Verification of the JSON-extraction and schema-enforcement logic of the
Smollm/phi3 multi-agent annotation pipeline (files `agent_demo.py` and
`agents_demo.py`).

The Python code is shallowly embedded:
* JSON values (the results of `json.loads`) become the inductive type `JValue`;
  numbers are kept by their source lexeme (the claims never depend on numeric
  arithmetic), and Python `dict`s become insertion-ordered association lists
  with the replace-in-place update semantics of `dict.__setitem__`.
* `extract_json` is modelled step by step: a fueled recursive-descent parser
  for `json.loads` (whitespace, strings with escapes, numbers by the
  `NUMBER_RE` grammar, `true`/`false`/`null`/`NaN`/`Infinity`, objects with
  last-key-wins insertion, and the trailing "extra data" check), an executable
  search `fenceSearch` for the regex ```(?:json)?\s*(\{.*?\})\s*``` with
  Python's leftmost/greedy/lazy backtracking semantics, and the naive
  brace-depth scan with its single parse attempt at the first zero crossing.
* `ensure_final_strict` is modelled with a word tokenizer `findWords` for
  `re.findall(r"\b[\w’'-]+\b", s)`: a maximal run of characters from the class
  `[\w’'-]` is matched, and the surrounding `\b` anchors trim the run to the
  segment from its first to its last word character (`\w`); runs without a
  word character produce no match.  Unicode categories are approximated by
  ASCII (`Char.isAlpha`/`Char.isDigit`), which covers every input the claims
  and the repository exercise.
* The `main` orchestrations of the two variants become `mainA` (smollm,
  `agent_demo.py`) and `mainB` (phi3, `agents_demo.py`); Python runtime errors
  (`AttributeError`, `TypeError`, `IndexError`, ...) are modelled by `Except`.
-/

namespace AD

/-- JSON values as produced by `json.loads`.  Numbers are stored by their
source lexeme. -/
inductive JValue where
  | jnull
  | jbool (b : Bool)
  | jnum (lex : String)
  | jstr (s : String)
  | jarr (elems : List JValue)
  | jobj (members : List (String × JValue))

/-- The apostrophe character `'` (word 39). -/
def aposC : Char := Char.ofNat 39

/-- The right single quotation mark `’` (U+2019) appearing in the Python
word regex. -/
def rsquoC : Char := Char.ofNat 8217

/-- The backtick character (word 96). -/
def btC : Char := Char.ofNat 96

/-- The double-quote character (word 34). -/
def dqC : Char := Char.ofNat 34

/-- The backslash character (word 92). -/
def bslC : Char := Char.ofNat 92

/-- Whitespace for Python's `str.strip` and the regex class `\s`
(ASCII part: space, tab, newline, carriage return, vertical tab, form feed). -/
def isPyWs (c : Char) : Bool :=
  c == ' ' || c == '\t' || c == '\n' || c == '\r' || c == Char.ofNat 11 || c == Char.ofNat 12

/-- JSON whitespace as skipped by `json.decoder` (`[ \t\n\r]`). -/
def isJsonWs (c : Char) : Bool :=
  c == ' ' || c == '\t' || c == '\n' || c == '\r'

/-- The regex class `\w` (ASCII approximation: letters, digits, underscore). -/
def isWordChar (c : Char) : Bool := c.isAlpha || c.isDigit || c == '_'

/-- The regex class `[\w’'-]` from `re.findall(r"\b[\w’'-]+\b", s)`. -/
def isTokChar (c : Char) : Bool :=
  isWordChar c || c == rsquoC || c == aposC || c == '-'

/-- Python `str.strip()` on a character list. -/
def pyStripL (l : List Char) : List Char :=
  ((l.dropWhile isPyWs).reverse.dropWhile isPyWs).reverse

mutual

/-- Python `repr` of a JSON-derived value (best effort: containers print with
single-quoted strings and `", "` separators, `None`/`True`/`False` for the
literals; numbers print their lexeme). -/
def pyRepr : JValue → String
  | .jnull => "None"
  | .jbool b => if b then "True" else "False"
  | .jnum lex => lex
  | .jstr s => String.mk (aposC :: s.data ++ [aposC])
  | .jarr xs => "[" ++ pyReprList xs ++ "]"
  | .jobj kvs => "\x7b" ++ pyReprMembers kvs ++ "\x7d"

/-- `repr` of the comma-separated elements of a Python list. -/
def pyReprList : List JValue → String
  | [] => ""
  | [x] => pyRepr x
  | x :: y :: xs => pyRepr x ++ ", " ++ pyReprList (y :: xs)

/-- `repr` of the comma-separated members of a Python dict. -/
def pyReprMembers : List (String × JValue) → String
  | [] => ""
  | [(k, v)] => String.mk (aposC :: k.data ++ [aposC]) ++ ": " ++ pyRepr v
  | (k, v) :: m :: kvs =>
      String.mk (aposC :: k.data ++ [aposC]) ++ ": " ++ pyRepr v ++ ", " ++
        pyReprMembers (m :: kvs)

end

/-- Python `str()` of a JSON-derived value: a string prints verbatim, anything
else prints like `repr`. -/
def pyStr (v : JValue) : String :=
  match v with
  | .jstr s => s
  | _ => pyRepr v

/-! ### The word tokenizer of `ensure_final_strict`

`re.findall(r"\b[\w’'-]+\b", summary)`: each match is a maximal run of
characters from `[\w’'-]` trimmed by the `\b` anchors to start and end on a
`\w` character (a run containing no `\w` character yields no match: no
position inside it is a word boundary). -/

/-- Trim a character run to the segment between its first and last `\w`
character (the effect of the two `\b` anchors on a maximal `[\w’'-]+` run). -/
def trimRun (r : List Char) : List Char :=
  ((r.dropWhile (fun c => !isWordChar c)).reverse.dropWhile (fun c => !isWordChar c)).reverse

/-- Emit the token collected in `acc` (in reverse) in front of `rest`,
dropping it when the trim leaves nothing. -/
def emitRun (acc : List Char) (rest : List (List Char)) : List (List Char) :=
  let t := trimRun acc.reverse
  if t.isEmpty then rest else t :: rest

/-- Scanner for `re.findall(r"\b[\w’'-]+\b", s)`: split into maximal
`[\w’'-]` runs and trim each to its word-character core. -/
def findWordsAux : List Char → List Char → List (List Char)
  | [], acc => emitRun acc []
  | c :: cs, acc =>
      if isTokChar c then findWordsAux cs (c :: acc)
      else emitRun acc (findWordsAux cs [])

/-- `re.findall(r"\b[\w’'-]+\b", s)` on a character list. -/
def findWords (l : List Char) : List (List Char) := findWordsAux l []

/-- `" ".join(words)`. -/
def joinWordsL : List (List Char) → List Char
  | [] => []
  | [w] => w
  | w :: x :: ws => w ++ ' ' :: joinWordsL (x :: ws)

/-- Number of regex words in a string. -/
def wordCount (s : String) : Nat := (findWords s.data).length

/-! ### `ensure_final_strict` -/

/-- The schema-conformant output of `ensure_final_strict`
(`{"tags": tags, "summary": summary}`). -/
structure Publish where
  tags : List String
  summary : String
deriving DecidableEq, Repr

/-- Python `dict.get(k, d)` on the association-list model of a dict. -/
def dictGet (kvs : List (String × JValue)) (k : String) (d : JValue) : JValue :=
  match kvs.lookup k with
  | some v => v
  | none => d

/-- `t.strip().lower()` for a tag candidate. -/
def stripLower (t : String) : String :=
  String.mk ((pyStripL t.data).map Char.toLower)

/-- The normalization loop of `ensure_final_strict`: keep string elements
whose stripped lowercase form is nonempty and not yet seen (the `seen` set
always equals the set of tags kept so far, since both grow together). -/
def normLoop : List JValue → List String → List String
  | [], acc => acc
  | t :: rest, acc =>
      match t with
      | .jstr s =>
          let k := stripLower s
          if k ≠ "" && !(acc.contains k) then normLoop rest (acc ++ [k])
          else normLoop rest acc
      | _ => normLoop rest acc

/-- The `while len(tags) < 3: tags.append(f"tag...")` padding loop; the fuel
of 3 is enough because the loop starts from `norm[:3]`. -/
def padLoop : Nat → List String → List String
  | 0, l => l
  | f + 1, l =>
      if l.length < 3 then padLoop f (l ++ ["tag" ++ toString (l.length + 1)])
      else l

/-- `summary = obj.get("summary", ""); if not isinstance(summary, str):
summary = str(summary)`. -/
def coerceSummary (v : JValue) : String :=
  match v with
  | .jstr s => s
  | _ => pyStr v

/-- `ensure_final_strict` from `agent_demo.py`: enforce
tags = 3 lowercase strings and summary truncated to 25 regex words. -/
def ensure_final_strict (obj : List (String × JValue)) : Publish :=
  let tagsV := dictGet obj "tags" (JValue.jarr [])
  let tagsL := match tagsV with
    | .jarr l => l
    | _ => []
  let norm := normLoop tagsL []
  let tags := padLoop 3 (norm.take 3)
  let summary := coerceSummary (dictGet obj "summary" (JValue.jstr ""))
  let words := findWords summary.data
  let summary2 :=
    if 25 < words.length then String.mk (joinWordsL (words.take 25)) else summary
  ⟨tags, summary2⟩

/-! ### A recursive-descent model of `json.loads`

Faithful to `json/decoder.py` / `json/scanner.py`: whitespace `[ \t\n\r]`
between tokens, strings with the standard escapes (strict mode: raw control
characters are rejected), numbers matched by
`(-?(?:0|[1-9]\d*))(\.\d+)?([eE][-+]?\d+)?`, the constants
`null`/`true`/`false`/`NaN`/`Infinity`/`-Infinity`, arrays, and objects with
Python-dict insertion (a repeated key overwrites in place).  After the value,
`json.loads` skips whitespace and rejects trailing data.  Recursion is fueled;
one unit of fuel is spent per recursive call and every call site has consumed
at least one character first, so fuel `length + 1` never runs out. -/

/-- The opening brace character. -/
def obC : Char := Char.ofNat 123

/-- The closing brace character. -/
def cbC : Char := Char.ofNat 125

/-- Skip JSON whitespace. -/
def skipWs (l : List Char) : List Char := l.dropWhile isJsonWs

/-- Value of a hexadecimal digit. -/
def hexVal (c : Char) : Option Nat :=
  if c.isDigit then some (c.toNat - 48)
  else if 'a' ≤ c && c ≤ 'f' then some (c.toNat - 87)
  else if 'A' ≤ c && c ≤ 'F' then some (c.toNat - 55)
  else none

/-- Scan a JSON string body (after the opening quote); returns the decoded
characters and the input after the closing quote. -/
def strScan : List Char → List Char → Option (List Char × List Char)
  | [], _ => none
  | c :: cs, acc =>
      if c = dqC then some (acc.reverse, cs)
      else if c = bslC then
        match cs with
        | [] => none
        | e :: cs2 =>
            if e = dqC then strScan cs2 (dqC :: acc)
            else if e = bslC then strScan cs2 (bslC :: acc)
            else if e = '/' then strScan cs2 ('/' :: acc)
            else if e = 'b' then strScan cs2 (Char.ofNat 8 :: acc)
            else if e = 'f' then strScan cs2 (Char.ofNat 12 :: acc)
            else if e = 'n' then strScan cs2 ('\n' :: acc)
            else if e = 'r' then strScan cs2 ('\r' :: acc)
            else if e = 't' then strScan cs2 ('\t' :: acc)
            else if e = 'u' then
              match cs2 with
              | h1 :: h2 :: h3 :: h4 :: cs3 =>
                  match hexVal h1, hexVal h2, hexVal h3, hexVal h4 with
                  | some a, some b, some c3, some d =>
                      strScan cs3 (Char.ofNat (((a * 16 + b) * 16 + c3) * 16 + d) :: acc)
                  | _, _, _, _ => none
              | _ => none
            else none
      else if c.toNat < 32 then none
      else strScan cs (c :: acc)

/-- Integer part of `NUMBER_RE`: `-?(?:0|[1-9]\d*)` without the sign. -/
def numScanInt : List Char → Option (List Char × List Char)
  | [] => none
  | c :: r =>
      if c = '0' then some (['0'], r)
      else if c.isDigit then some (c :: r.takeWhile Char.isDigit, r.dropWhile Char.isDigit)
      else none

/-- Optional fractional part `(\.\d+)?`. -/
def numScanFrac (l : List Char) : List Char × List Char :=
  match l with
  | [] => ([], [])
  | c :: r =>
      if c = '.' then
        match r.takeWhile Char.isDigit with
        | [] => ([], c :: r)
        | d :: ds => ('.' :: d :: ds, r.dropWhile Char.isDigit)
      else ([], c :: r)

/-- Optional exponent part `([eE][-+]?\d+)?`. -/
def numScanExp (l : List Char) : List Char × List Char :=
  match l with
  | c :: r =>
      if c = 'e' || c = 'E' then
        match r with
        | s :: r2 =>
            if s = '+' || s = '-' then
              match r2.takeWhile Char.isDigit with
              | [] => ([], l)
              | ds => (c :: s :: ds, r2.dropWhile Char.isDigit)
            else
              match r.takeWhile Char.isDigit with
              | [] => ([], l)
              | ds => (c :: ds, r.dropWhile Char.isDigit)
        | [] => ([], l)
      else ([], l)
  | [] => ([], l)

/-- Scan a number lexeme per `NUMBER_RE` (with the optional leading sign). -/
def numScan (l : List Char) : Option (List Char × List Char) :=
  match l with
  | [] => none
  | c :: r =>
      if c = '-' then
        match numScanInt r with
        | some (ip, r1) =>
            let (fp, r2) := numScanFrac r1
            let (ep, r3) := numScanExp r2
            some ('-' :: ip ++ fp ++ ep, r3)
        | none => none
      else
        match numScanInt (c :: r) with
        | some (ip, r1) =>
            let (fp, r2) := numScanFrac r1
            let (ep, r3) := numScanExp r2
            some (ip ++ fp ++ ep, r3)
        | none => none

/-- Python dict insertion: overwrite an existing key in place, else append. -/
def objInsert (kvs : List (String × JValue)) (k : String) (v : JValue) :
    List (String × JValue) :=
  match kvs with
  | [] => [(k, v)]
  | (k1, v1) :: rest =>
      if k1 == k then (k1, v) :: rest else (k1, v1) :: objInsert rest k v

/-- Match a literal prefix (the constant tokens `null`, `true`, ...),
returning the input after it. -/
def stripPre : List Char → List Char → Option (List Char)
  | [], l => some l
  | _ :: _, [] => none
  | p :: ps, c :: cs => if c = p then stripPre ps cs else none

mutual

/-- Scan one JSON value at the current position (no leading whitespace). -/
def parseValue : Nat → List Char → Option (JValue × List Char)
  | 0, _ => none
  | _ + 1, [] => none
  | f + 1, c :: r =>
      if c = dqC then
        match strScan r [] with
        | some (s, rest) => some (JValue.jstr (String.mk s), rest)
        | none => none
      else if c = obC then
        match skipWs r with
        | [] => none
        | c1 :: r1 =>
            if c1 = cbC then some (JValue.jobj [], r1)
            else
              match parseMembers f (c1 :: r1) [] with
              | some (kvs, rest) => some (JValue.jobj kvs, rest)
              | none => none
      else if c = '[' then
        match skipWs r with
        | [] => none
        | c1 :: r1 =>
            if c1 = ']' then some (JValue.jarr [], r1)
            else
              match parseElems f (c1 :: r1) [] with
              | some (xs, rest) => some (JValue.jarr xs, rest)
              | none => none
      else if c = 'n' then
        match stripPre ['u', 'l', 'l'] r with
        | some rest => some (JValue.jnull, rest)
        | none => none
      else if c = 't' then
        match stripPre ['r', 'u', 'e'] r with
        | some rest => some (JValue.jbool true, rest)
        | none => none
      else if c = 'f' then
        match stripPre ['a', 'l', 's', 'e'] r with
        | some rest => some (JValue.jbool false, rest)
        | none => none
      else if c = 'N' then
        match stripPre ['a', 'N'] r with
        | some rest => some (JValue.jnum "NaN", rest)
        | none => none
      else if c = 'I' then
        match stripPre ['n', 'f', 'i', 'n', 'i', 't', 'y'] r with
        | some rest => some (JValue.jnum "Infinity", rest)
        | none => none
      else if c = '-' || c.isDigit then
        match numScan (c :: r) with
        | some (lex, rest) => some (JValue.jnum (String.mk lex), rest)
        | none =>
            if c = '-' then
              match stripPre ['I', 'n', 'f', 'i', 'n', 'i', 't', 'y'] r with
              | some rest => some (JValue.jnum "-Infinity", rest)
              | none => none
            else none
      else none

/-- Scan the members of an object, positioned at a key (whitespace skipped);
`acc` carries the dict built so far. -/
def parseMembers : Nat → List Char → List (String × JValue) →
    Option (List (String × JValue) × List Char)
  | 0, _, _ => none
  | _ + 1, [], _ => none
  | f + 1, c :: r, acc =>
      if c = dqC then
        match strScan r [] with
        | some (k, r2) =>
            match skipWs r2 with
            | [] => none
            | c1 :: r3 =>
                if c1 = ':' then
                  match parseValue f (skipWs r3) with
                  | some (v, r4) =>
                      let acc2 := objInsert acc (String.mk k) v
                      match skipWs r4 with
                      | c2 :: r5 =>
                          if c2 = cbC then some (acc2, r5)
                          else if c2 = ',' then parseMembers f (skipWs r5) acc2
                          else none
                      | [] => none
                  | none => none
                else none
        | none => none
      else none

/-- Scan the elements of an array, positioned at an element. -/
def parseElems : Nat → List Char → List JValue → Option (List JValue × List Char)
  | 0, _, _ => none
  | f + 1, l, acc =>
      match parseValue f l with
      | some (v, r1) =>
          let acc2 := acc ++ [v]
          match skipWs r1 with
          | c2 :: r2 =>
              if c2 = ']' then some (acc2, r2)
              else if c2 = ',' then parseElems f (skipWs r2) acc2
              else none
          | [] => none
      | none => none

end

/-- `json.loads` on a character list: skip whitespace, scan one value, then
require only whitespace to remain; `none` models a raised `ValueError`. -/
def json_loads_l (l : List Char) : Option JValue :=
  let l1 := skipWs l
  match parseValue (l1.length + 1) l1 with
  | some (v, rest) => if skipWs rest = [] then some v else none
  | none => none

/-- `json.loads` on a string. -/
def json_loads (s : String) : Option JValue := json_loads_l s.data

/-! ### The fenced-code-block regex of `extract_json`

`re.search(r'```(?:json)?\s*(\{.*?\})\s*```', text, flags=re.S)` with
Python's backtracking semantics:
* `re.search` tries successive start positions left to right; a match must
  begin with the literal ```` ``` ````.
* `(?:json)?` is greedy; if `json` follows it is consumed (when the rest then
  fails, the retry without `json` also fails at `\{` on the letter `j`, so
  consuming it unconditionally is equivalent).
* the greedy `\s*` consumes the maximal whitespace run; backtracking to a
  shorter run cannot help because `\{` would then face a whitespace character.
* `\{` must match next; then the lazy `.*?` (with `re.S`) stops at the
  closest `\}` whose continuation `\s*` + ```` ``` ```` matches, scanning
  candidate closing braces left to right; the whitespace run after a
  candidate is again maximal and uniquely determined since a backtick is not
  whitespace. -/

/-- Does `l` start with three backticks? -/
def bt3Pre (l : List Char) : Bool :=
  match l with
  | a :: b :: c :: _ => a = btC && b = btC && c = btC
  | _ => false

/-- The lazy search for the closing `\}` of the fence group: collect
characters (reversed in `acc`), and at each `}` accept when the maximal
`\s*` run after it is followed by ```` ``` ````. -/
def lazyClose : List Char → List Char → Option (List Char)
  | [], _ => none
  | c :: cs, acc =>
      if c = cbC then
        if bt3Pre (cs.dropWhile isPyWs) then some ((c :: acc).reverse)
        else lazyClose cs (c :: acc)
      else lazyClose cs (c :: acc)

/-- Attempt the fence pattern at one start position; returns the captured
group `\{.*?\}`. -/
def tryFence (l : List Char) : Option (List Char) :=
  match l with
  | a :: b :: c :: r =>
      if a = btC && b = btC && c = btC then
        let r1 :=
          match r with
          | 'j' :: 's' :: 'o' :: 'n' :: r2 => r2
          | _ => r
        match r1.dropWhile isPyWs with
        | c1 :: r3 => if c1 = obC then lazyClose r3 [obC] else none
        | [] => none
      else none
  | _ => none

/-- `re.search` for the fence pattern: first start position that matches. -/
def fenceSearch : List Char → Option (List Char)
  | [] => none
  | c :: cs =>
      match tryFence (c :: cs) with
      | some g => some g
      | none => fenceSearch cs

/-! ### The brace-depth scan of `extract_json` -/

/-- Suffix of `l` from the first `{` (Python `start = text.find('{')`),
or `none` when there is none. -/
def fromFirstBrace : List Char → Option (List Char)
  | [] => none
  | c :: cs => if c = obC then some (c :: cs) else fromFirstBrace cs

/-- The brace-counting loop: increment on `{`, decrement on `}`, and stop at
the first return to depth 0, yielding the scanned prefix (the single parse
candidate; the Python loop `break`s right after it). -/
def scanBraces : List Char → Int → List Char → Option (List Char)
  | [], _, _ => none
  | c :: cs, depth, acc =>
      if c = obC then scanBraces cs (depth + 1) (c :: acc)
      else if c = cbC then
        if depth - 1 = 0 then some ((c :: acc).reverse)
        else scanBraces cs (depth - 1) (c :: acc)
      else scanBraces cs depth (c :: acc)

/-- `extract_json` from `agent_demo.py`: strip, try `json.loads` on the whole
text, then the fenced block, then the first balanced-brace candidate, and
fall back to the empty dict.  (The Python return annotation is
`Dict[str, Any]`, but the first attempt returns whatever `json.loads`
produced, object or not.) -/
def extract_json (text : String) : JValue :=
  let t := pyStripL text.data
  match json_loads_l t with
  | some v => v
  | none =>
      let braces :=
        match fromFirstBrace t with
        | none => JValue.jobj []
        | some suff =>
            match scanBraces suff 0 [] with
            | none => JValue.jobj []
            | some sub =>
                match json_loads_l sub with
                | some v => v
                | none => JValue.jobj []
      match fenceSearch t with
      | some g =>
          match json_loads_l g with
          | some v => v
          | none => braces
      | none => braces

/-- Is a value a Python dict (a JSON object)? -/
def isObjB : JValue → Bool
  | .jobj _ => true
  | _ => false

/-! ### Python runtime semantics for the pipeline orchestration

`Except Unit` models an uncaught Python exception (`AttributeError` from
`.get` on a non-dict, `TypeError` from `len`/iteration/slicing on an
unsuitable value, `IndexError`/`KeyError` from `[0]`). -/

/-- Is the numeric value of a lexeme zero (`0`, `-0`, `0.00`, `0e5`, ...)?
Only the mantissa matters. -/
def numIsZero (lex : String) : Bool :=
  (lex.data.takeWhile (fun c => c != 'e' && c != 'E')).all
    (fun c => c == '0' || c == '-' || c == '.')

/-- Python truthiness of a JSON-derived value. -/
def pyTruthy : JValue → Bool
  | .jnull => false
  | .jbool b => b
  | .jnum lex => !numIsZero lex
  | .jstr s => !s.isEmpty
  | .jarr xs => !xs.isEmpty
  | .jobj kvs => !kvs.isEmpty

/-- `v.get(k, d)`: works on a dict, raises `AttributeError` otherwise. -/
def pyGetE (v : JValue) (k : String) (d : JValue) : Except Unit JValue :=
  match v with
  | .jobj kvs => .ok (dictGet kvs k d)
  | _ => .error ()

/-- `len(v)` for str/list/dict, raising `TypeError` otherwise. -/
def pyLenE : JValue → Except Unit Nat
  | .jstr s => .ok s.length
  | .jarr xs => .ok xs.length
  | .jobj kvs => .ok kvs.length
  | _ => .error ()

/-- `for x in v`: elements of a list, characters of a string, keys of a
dict; raises `TypeError` otherwise. -/
def pyIterE : JValue → Except Unit (List JValue)
  | .jarr xs => .ok xs
  | .jstr s => .ok (s.data.map (fun c => JValue.jstr (String.mk [c])))
  | .jobj kvs => .ok (kvs.map (fun p => JValue.jstr p.1))
  | _ => .error ()

/-- `v[:3]` for list/str, raising `TypeError` otherwise. -/
def pySliceTake3 : JValue → Except Unit JValue
  | .jarr xs => .ok (.jarr (xs.take 3))
  | .jstr s => .ok (.jstr (String.mk (s.data.take 3)))
  | _ => .error ()

/-- `v[0]` for list/str (raising `IndexError` when empty), raising
`TypeError`/`KeyError` otherwise. -/
def pyIndexZero : JValue → Except Unit JValue
  | .jarr (x :: _) => .ok x
  | .jstr s =>
      match s.data with
      | c :: _ => .ok (.jstr (String.mk [c]))
      | [] => .error ()
  | _ => .error ()

/-- `v[k] = x` on a dict, raising `TypeError` otherwise. -/
def pySetItem (v : JValue) (k : String) (x : JValue) : Except Unit JValue :=
  match v with
  | .jobj kvs => .ok (.jobj (objInsert kvs k x))
  | _ => .error ()

/-- Does `p` start `l`? -/
def startsWithL : List Char → List Char → Bool
  | [], _ => true
  | _ :: _, [] => false
  | a :: p, b :: l => a = b && startsWithL p l

/-- Python `needle in hay` (contiguous substring). -/
def isSubL (needle : List Char) : List Char → Bool
  | [] => needle.isEmpty
  | c :: t => startsWithL needle (c :: t) || isSubL needle t

/-- `any('t' + str(i) in str(tag) for i in range(1, 4))`: does the string
form of a tag contain `t1`, `t2` or `t3` as a substring? -/
def hasPH (tag : JValue) : Bool :=
  [1, 2, 3].any fun i => isSubL ("t" ++ toString i).data (pyStr tag).data

/-- `str.lower` of a string value, raising `TypeError` otherwise
(`map(str.lower, ...)` on a non-string element). -/
def pyLowerStrE : JValue → Except Unit String
  | .jstr s => .ok (String.mk (s.data.map Char.toLower))
  | _ => .error ()

/-- Equality of two string lists viewed as Python sets. -/
def setEqStr (a b : List String) : Bool :=
  a.all b.contains && b.all a.contains

/-! ### `main` of `agent_demo.py` (smollm variant), stage by stage -/

/-- The hardcoded Planner fallback of `agent_demo.py`. -/
def hardcodedPlanner : JValue :=
  .jobj
    [("tags", .jarr
        [.jstr "vector clocks", .jstr "distributed systems", .jstr "causality",
         .jstr "event ordering", .jstr "conflict resolution"]),
     ("summaries", .jarr
        [.jstr "Vector clocks track event causality in distributed systems without synchronized time",
         .jstr "Distributed systems use vector clocks to establish partial ordering of events"])]

/-- Planner stage: unwrap `planner`, accept a bare tags object, and fall
back to the hardcoded defaults when tags or summaries are missing/falsy. -/
def plannerStage (planner_raw : String) : Except Unit JValue := do
  let planner_json := extract_json planner_raw
  let planner0 ← pyGetE planner_json "planner" (JValue.jobj [])
  let tagsProbe ← pyGetE planner_json "tags" JValue.jnull
  let planner1 :=
    if !pyTruthy planner0 && pyTruthy tagsProbe then planner_json else planner0
  let pt ← pyGetE planner1 "tags" JValue.jnull
  let ps ← pyGetE planner1 "summaries" JValue.jnull
  return if !pyTruthy pt || !pyTruthy ps then hardcodedPlanner else planner1

/-- The Reviewer-stage quality test:
`not chosen_tags or len(chosen_tags) < 3 or any('t'+str(i) in str(tag) ...)`
with Python's short-circuit evaluation. -/
def reviewTagsBad (ct : JValue) : Except Unit Bool := do
  if !pyTruthy ct then return true
  let n ← pyLenE ct
  if n < 3 then return true
  let items ← pyIterE ct
  return items.any hasPH

/-- Reviewer stage: read `reviewer.chosen_tags` / `summary`, and substitute
the Planner's first 3 tags / first summary on the fallback conditions.
Returns `(chosen_tags, chosen_summary)`. -/
def reviewerStage (reviewer_json planner : JValue) :
    Except Unit (JValue × JValue) := do
  let reviewer ← pyGetE reviewer_json "reviewer" (JValue.jobj [])
  let ct ← pyGetE reviewer "chosen_tags" (JValue.jarr [])
  let cs0 ← pyGetE reviewer "chosen_summary" (JValue.jstr "")
  let cs ← pyGetE reviewer "summary" cs0
  let bad ← reviewTagsBad ct
  let ct2 ←
    if bad then do
      let pt ← pyGetE planner "tags" (JValue.jarr [])
      pySliceTake3 pt
    else pure ct
  let cs2 ←
    if !pyTruthy cs then do
      let ps ← pyGetE planner "summaries" (JValue.jarr [JValue.jstr ""])
      pyIndexZero ps
    else pure cs
  return (ct2, cs2)

/-- Finalizer stage: replace missing/placeholder tags and missing summary of
the extracted final object by the Reviewer's choices. -/
def finalStage (final_raw : String) (chosen_tags chosen_summary : JValue) :
    Except Unit JValue := do
  let final_obj := extract_json final_raw
  let ftProbe ← pyGetE final_obj "tags" JValue.jnull
  let bad1 ←
    if !pyTruthy ftProbe then pure true
    else do
      let ft ← pyGetE final_obj "tags" (JValue.jarr [])
      let items ← pyIterE ft
      pure (items.any hasPH)
  let f1 ← if bad1 then pySetItem final_obj "tags" chosen_tags else pure final_obj
  let fsProbe ← pyGetE f1 "summary" JValue.jnull
  if !pyTruthy fsProbe then pySetItem f1 "summary" chosen_summary else pure f1

/-- Members of an object (the argument of `ensure_final_strict`; by this
point `main` has already indexed into it, so it is a dict). -/
def objMembers : JValue → List (String × JValue)
  | .jobj kvs => kvs
  | _ => []

/-- `main` of `agent_demo.py` after the three model calls, as a function of
the three raw model replies: Planner, Reviewer and Finalizer stages, then
`ensure_final_strict`, then the `Short Answers Helper` comparison (which can
still raise). -/
def mainA (planner_raw reviewer_raw final_raw : String) : Except Unit Publish := do
  let planner ← plannerStage planner_raw
  let (chosen_tags, chosen_summary) ← reviewerStage (extract_json reviewer_raw) planner
  let final2 ← finalStage final_raw chosen_tags chosen_summary
  let publish := ensure_final_strict (objMembers final2)
  let pt ← pyGetE planner "tags" (JValue.jarr [])
  let pt3 ← pySliceTake3 pt
  let items ← pyIterE pt3
  let lows ← items.mapM pyLowerStrE
  let _ := setEqStr (publish.tags.map (fun s => String.mk (s.data.map Char.toLower))) lows
  return publish

/-! ### `agents_demo.py` (phi3 variant): health probe and `main` -/

/-- `text.find(c)` (first index or `-1`). -/
def pyFind : List Char → Char → Int
  | [], _ => -1
  | x :: xs, c =>
      if x = c then 0
      else
        let r := pyFind xs c
        if r < 0 then -1 else r + 1

/-- `text.rfind(c)` (last index or `-1`). -/
def pyRFind (l : List Char) (c : Char) : Int :=
  let r := pyFind l.reverse c
  if r < 0 then -1 else (l.length : Int) - 1 - r

/-- Python slice `l[a:b]` with negative-index wrapping and clamping. -/
def pySliceI (l : List Char) (a b : Int) : List Char :=
  let n : Int := l.length
  let a2 := if a < 0 then a + n else a
  let b2 := if b < 0 then b + n else b
  let a3 := (max a2 0).toNat
  let b3 := (max b2 0).toNat
  (l.take b3).drop a3

/-- `json.loads(raw[raw.find('{') : raw.rfind('}') + 1])`, the per-stage
parse of `agents_demo.py`; `none` models the caught exception. -/
def loadsSliceB (raw : String) : Option JValue :=
  let l := raw.data
  json_loads_l (pySliceI l (pyFind l obC) (pyRFind l cbC + 1))

/-- `if pyTruthy a then a else b` (Python `a or b`). -/
def pyOr (a b : JValue) : JValue := if pyTruthy a then a else b

/-- `finalizer` of `agents_demo.py`: build the finalized dict and the publish
package from the two stage objects (every `.get` can raise on a non-dict). -/
def finalizerB (planner_json reviewer_json : JValue) : Except Unit JValue := do
  let th ← pyGetE reviewer_json "thought" (.jstr "")
  let ms ← pyGetE reviewer_json "message" (.jstr "")
  let da ← pyGetE reviewer_json "data" (.jobj [])
  let iss ← pyGetE reviewer_json "issues" (.jarr [])
  let _pth ← pyGetE planner_json "thought" (.jstr "")
  let _pms ← pyGetE planner_json "message" (.jstr "")
  let pda ← pyGetE planner_json "data" (.jobj [])
  let psum1 ← pyGetE pda "summary" (.jstr "")
  let psum2 ← pyGetE planner_json "summary" (.jstr "")
  let rsum1 ← pyGetE da "summary" (.jstr "")
  let rsum2 ← pyGetE reviewer_json "summary" (.jstr "")
  let _pagent := pyOr psum1 psum2
  let _ragent := pyOr rsum1 rsum2
  return .jobj [("thought", th), ("message", ms), ("data", da), ("issues", iss)]

/-- `main` of `agents_demo.py` given the health-probe verdict and the raw
model replies (`asks i` is the reply to the `i`-th model call).  Result
`(none, n)` is an early `return` after `n` model calls; `(some fin, 2)` is a
completed run. -/
def mainB (up : Bool) (asks : Nat → String) : Except Unit (Option JValue × Nat) :=
  if !up then .ok (none, 0)
  else
    match loadsSliceB (asks 0) with
    | none => .ok (none, 1)
    | some pj =>
        match loadsSliceB (asks 1) with
        | none => .ok (none, 2)
        | some rj =>
            match finalizerB pj rj with
            | .ok fin => .ok (some fin, 2)
            | .error e => .error e

/-- The retry loop of `wait_ollama`: `probe i = some st` is a response with
status `st`, `none` a raised exception (only that branch sleeps, for 1
second).  Returns (result, attempts made, sleep durations). -/
def waitLoop (probe : Nat → Option Nat) : Nat → Nat → Bool × Nat × List Nat
  | _, 0 => (false, 0, [])
  | i, f + 1 =>
      match probe i with
      | some st =>
          if st = 200 then (true, 1, [])
          else
            let (b, n, sl) := waitLoop probe (i + 1) f
            (b, n + 1, sl)
      | none =>
          let (b, n, sl) := waitLoop probe (i + 1) f
          (b, n + 1, 1 :: sl)

/-- `wait_ollama` with its default `max_retries=5`. -/
def wait_ollama (probe : Nat → Option Nat) : Bool × Nat × List Nat :=
  waitLoop probe 0 5

/-! ### Canonical JSON text of a value, for the extractor claims

Claims C7 and C8 quantify over "the text of a valid JSON object"; `render`
produces that text (compact form, no whitespace).  `plainV` carves out the
values for which `render` is valid JSON text needing no escapes: strings and
keys contain no quote, backslash, brace or control character (backticks and
everything else are allowed), keys are distinct, and numbers are integer
lexemes. -/

mutual

/-- Compact JSON text of a value. -/
def render : JValue → List Char
  | .jnull => ['n', 'u', 'l', 'l']
  | .jbool b => if b then ['t', 'r', 'u', 'e'] else ['f', 'a', 'l', 's', 'e']
  | .jnum lex => lex.data
  | .jstr s => dqC :: s.data ++ [dqC]
  | .jarr xs => '[' :: renderElems xs ++ [']']
  | .jobj kvs => obC :: renderMembers kvs ++ [cbC]

/-- Comma-separated renderings of array elements. -/
def renderElems : List JValue → List Char
  | [] => []
  | [x] => render x
  | x :: y :: xs => render x ++ ',' :: renderElems (y :: xs)

/-- Comma-separated renderings of object members. -/
def renderMembers : List (String × JValue) → List Char
  | [] => []
  | [(k, v)] => dqC :: k.data ++ dqC :: ':' :: render v
  | (k, v) :: m :: kvs =>
      dqC :: k.data ++ dqC :: ':' :: render v ++ ',' :: renderMembers (m :: kvs)

end

/-- A string character needing no JSON escaping and free of braces. -/
def plainChar (c : Char) : Bool :=
  c != dqC && c != bslC && c != obC && c != cbC && 32 ≤ c.toNat

/-- `0`, or a digit string without a leading zero. -/
def intCore : List Char → Bool
  | [] => false
  | c :: cs =>
      if c = '0' then cs.isEmpty
      else ('1' ≤ c && c ≤ '9') && cs.all Char.isDigit

/-- An integer lexeme as matched exactly by the JSON number grammar. -/
def isIntLex (lex : String) : Bool :=
  match lex.data with
  | [] => false
  | c :: cs => if c = '-' then intCore cs else intCore (c :: cs)

/-- Pairwise-distinct member keys. -/
def keysDistinct : List (String × JValue) → Bool
  | [] => true
  | (k, _) :: rest => !(rest.any fun p => p.1 == k) && keysDistinct rest

mutual

/-- Values whose `render` is honest JSON text: plain strings and keys,
distinct keys, integer number lexemes. -/
def plainV : JValue → Bool
  | .jnull => true
  | .jbool _ => true
  | .jnum lex => isIntLex lex
  | .jstr s => s.data.all plainChar
  | .jarr xs => plainElems xs
  | .jobj kvs => plainMembers kvs && keysDistinct kvs

/-- All elements plain. -/
def plainElems : List JValue → Bool
  | [] => true
  | x :: xs => plainV x && plainElems xs

/-- All keys plain-charactered and all values plain. -/
def plainMembers : List (String × JValue) → Bool
  | [] => true
  | (k, v) :: rest => k.data.all plainChar && plainV v && plainMembers rest

end

/-- A well-formed token of the word regex: nonempty, all characters in
`[\w’'-]`, first and last characters in `\w`. -/
def validTok (t : List Char) : Prop :=
  t ≠ [] ∧ (∀ c ∈ t, isTokChar c = true) ∧
    (∀ c, t.head? = some c → isWordChar c = true) ∧
    (∀ c, t.getLast? = some c → isWordChar c = true)

/-- Characters that can end the consumed lexeme of a successful
`parseValue`: closing quote, closing brace/bracket, a digit, or the final
letter of `true`/`false`/`null`/`NaN`/`Infinity`. -/
def goodEnd (c : Char) : Bool :=
  c = dqC || c = cbC || c = ']' || c.isDigit || c = 'e' || c = 'l' || c = 'y' || c = 'N'

/-- Characters that would extend a number lexeme. -/
def numExt (c : Char) : Bool :=
  c.isDigit || c = '.' || c = 'e' || c = 'E'

/-- Characters that may immediately precede a structural `{` inside
rendered JSON: `:` for a member value, `,` for a later element or member,
`[` for a first array element (the whole text may also start with `{`). -/
def openerB (c : Char) : Bool :=
  c = ':' || c = ',' || c = '['

/-- Scan `a` (continued by `suf`): after every closing brace of `a`, the
maximal whitespace run is not followed by three backticks — so the lazy
fence close rejects every closing-brace candidate inside `a`. -/
def noCB : List Char → List Char → Bool
  | [], _ => true
  | c :: cs, suf =>
      (if c = cbC then !bt3Pre ((cs ++ suf).dropWhile isPyWs) else true) &&
        noCB cs suf

/-- The fenced code block of claim C8: three backticks, optionally the tag
`json`, then the body on its own line, closed by three backticks. -/
def fenceBlock (tagged : Bool) (body : List Char) : List Char :=
  [btC, btC, btC] ++ (if tagged then ['j', 's', 'o', 'n'] else []) ++
    '\n' :: body ++ '\n' :: [btC, btC, btC]

mutual

/-- Recursion fuel `parseValue` needs on the rendering of a value. -/
def pvFuel : JValue → Nat
  | .jnull => 1
  | .jbool _ => 1
  | .jnum _ => 1
  | .jstr _ => 1
  | .jarr xs => 1 + peFuel xs
  | .jobj kvs => 1 + pmFuel kvs

/-- Fuel `parseElems` needs. -/
def peFuel : List JValue → Nat
  | [] => 0
  | x :: xs => 1 + max (pvFuel x) (peFuel xs)

/-- Fuel `parseMembers` needs. -/
def pmFuel : List (String × JValue) → Nat
  | [] => 0
  | (_, v) :: kvs => 1 + max (pvFuel v) (pmFuel kvs)

end

end AD

/-! ## Theorems -/

namespace AD

/-! ### Tokenizer lemmas -/

theorem dropWhile_head_not {p : Char → Bool} {l : List Char} {c : Char}
    (h : (l.dropWhile p).head? = some c) : p c = false := by
  induction l with
  | nil => simp [List.dropWhile] at h
  | cons x xs ih =>
      by_cases hx : p x
      · rw [List.dropWhile_cons_of_pos hx] at h
        exact ih h
      · rw [List.dropWhile_cons_of_neg hx] at h
        have hxc : x = c := by simpa using h
        subst hxc
        simpa using hx

theorem dropWhile_mem {p : Char → Bool} {l : List Char} {c : Char}
    (h : c ∈ l.dropWhile p) : c ∈ l :=
  (List.dropWhile_sublist p (l := l)).mem h

theorem dropWhile_getLast? {p : Char → Bool} {l : List Char}
    (h : l.dropWhile p ≠ []) : (l.dropWhile p).getLast? = l.getLast? := by
  induction l with
  | nil => simp [List.dropWhile] at h
  | cons x xs ih =>
      by_cases hx : p x
      · have hxs : xs.dropWhile p ≠ [] := by
          simpa [List.dropWhile_cons_of_pos hx] using h
        rw [List.dropWhile_cons_of_pos hx, ih hxs]
        cases xs with
        | nil => simp [List.dropWhile] at hxs
        | cons y ys => rw [List.getLast?_cons_cons]
      · rw [List.dropWhile_cons_of_neg hx]

theorem trimRun_valid {r : List Char} (hall : ∀ c ∈ r, isTokChar c = true)
    (hne : trimRun r ≠ []) : validTok (trimRun r) := by
  have htr : trimRun r =
      ((r.dropWhile (fun c => !isWordChar c)).reverse.dropWhile
        (fun c => !isWordChar c)).reverse := rfl
  have hd2ne : (r.dropWhile (fun c => !isWordChar c)).reverse.dropWhile
      (fun c => !isWordChar c) ≠ [] := by
    intro h
    apply hne
    rw [htr, h]
    rfl
  refine ⟨hne, ?_, ?_, ?_⟩
  · intro c hc
    rw [htr, List.mem_reverse] at hc
    have h2 := dropWhile_mem hc
    rw [List.mem_reverse] at h2
    exact hall c (dropWhile_mem h2)
  · intro c hc
    rw [htr, List.head?_reverse, dropWhile_getLast? hd2ne, List.getLast?_reverse] at hc
    have := dropWhile_head_not hc
    simpa using this
  · intro c hc
    rw [htr, List.getLast?_reverse] at hc
    have := dropWhile_head_not hc
    simpa using this

theorem trimRun_of_valid {t : List Char} (h : validTok t) : trimRun t = t := by
  obtain ⟨hne, _, hhead, hlast⟩ := h
  unfold trimRun
  have h1 : t.dropWhile (fun c => !isWordChar c) = t := by
    cases t with
    | nil => rfl
    | cons x xs =>
        have hx : isWordChar x = true := hhead x rfl
        simp [List.dropWhile, hx]
  rw [h1]
  have h2 : t.reverse.dropWhile (fun c => !isWordChar c) = t.reverse := by
    cases hrev : t.reverse with
    | nil => rfl
    | cons y ys =>
        have hy : t.getLast? = some y := by
          rw [← List.head?_reverse, hrev]; rfl
        have : isWordChar y = true := hlast y hy
        simp [List.dropWhile, this]
  rw [h2, List.reverse_reverse]

theorem findWordsAux_valid : ∀ (l acc : List Char),
    (∀ c ∈ acc, isTokChar c = true) → ∀ t ∈ findWordsAux l acc, validTok t := by
  intro l
  induction l with
  | nil =>
      intro acc hacc t ht
      simp only [findWordsAux, emitRun] at ht
      split at ht
      · simp at ht
      · next hne =>
          rcases List.mem_cons.mp ht with h | h
          · subst h
            exact trimRun_valid (by intro c hc; exact hacc c (by simpa using hc))
              (by simpa [List.isEmpty_iff] using hne)
          · simp at h
  | cons c cs ih =>
      intro acc hacc t ht
      by_cases hc : isTokChar c
      · rw [findWordsAux, if_pos hc] at ht
        exact ih (c :: acc) (by
          intro x hx
          rcases List.mem_cons.mp hx with h | h
          · subst h; exact hc
          · exact hacc x h) t ht
      · rw [findWordsAux, if_neg hc] at ht
        simp only [emitRun] at ht
        split at ht
        · exact ih [] (by simp) t ht
        · next hne =>
            rcases List.mem_cons.mp ht with h | h
            · subst h
              exact trimRun_valid (by intro x hx; exact hacc x (by simpa using hx))
                (by simpa [List.isEmpty_iff] using hne)
            · exact ih [] (by simp) t h

theorem findWords_valid {l : List Char} : ∀ t ∈ findWords l, validTok t :=
  findWordsAux_valid l [] (by simp)

theorem findWordsAux_append_tok : ∀ (w cs acc : List Char),
    (∀ c ∈ w, isTokChar c = true) →
    findWordsAux (w ++ cs) acc = findWordsAux cs (w.reverse ++ acc) := by
  intro w
  induction w with
  | nil => intro cs acc _; simp
  | cons x xs ih =>
      intro cs acc hall
      have hx : isTokChar x = true := hall x (by simp)
      rw [List.cons_append, findWordsAux, if_pos hx, ih cs (x :: acc)
        (by intro c hc; exact hall c (by simp [hc]))]
      simp

theorem isTokChar_space : isTokChar ' ' = false := by decide

theorem findWords_join : ∀ (ws : List (List Char)),
    (∀ t ∈ ws, validTok t) → findWords (joinWordsL ws) = ws := by
  intro ws
  induction ws with
  | nil => intro _; rfl
  | cons w rest ih =>
      intro hall
      have hw : validTok w := hall w (by simp)
      have hwtok : ∀ c ∈ w, isTokChar c = true := hw.2.1
      cases rest with
      | nil =>
          show findWordsAux (joinWordsL [w]) [] = [w]
          have : joinWordsL [w] = w ++ [] := by simp [joinWordsL]
          rw [this, findWordsAux_append_tok w [] [] hwtok]
          simp only [findWordsAux, emitRun, List.append_nil]
          rw [List.reverse_reverse, trimRun_of_valid hw]
          simp [List.isEmpty_iff, hw.1]
      | cons x rest2 =>
          show findWordsAux (joinWordsL (w :: x :: rest2)) [] = w :: x :: rest2
          rw [joinWordsL, findWordsAux_append_tok w _ [] hwtok]
          rw [findWordsAux, if_neg (by simp [isTokChar_space])]
          simp only [emitRun, List.append_nil, List.reverse_reverse]
          rw [trimRun_of_valid hw]
          have := ih (by intro t ht; exact hall t (by simp [ht]))
          simp only [findWords] at this
          rw [this]
          simp [List.isEmpty_iff, hw.1]

theorem padLoop3_length (l : List String) (h : l.length ≤ 3) :
    (padLoop 3 l).length = 3 := by
  match l with
  | [] => rfl
  | [a] => simp [padLoop]
  | [a, b] => simp [padLoop]
  | a :: b :: c :: rest =>
      have : rest = [] := by
        simp only [List.length_cons] at h
        exact List.length_eq_zero.mp (by omega)
      subst this
      simp [padLoop]

theorem summary_eq (obj : List (String × JValue)) :
    (ensure_final_strict obj).summary =
      if 25 < (findWords (coerceSummary (dictGet obj "summary" (JValue.jstr ""))).data).length
      then String.mk (joinWordsL
        ((findWords (coerceSummary (dictGet obj "summary" (JValue.jstr ""))).data).take 25))
      else coerceSummary (dictGet obj "summary" (JValue.jstr "")) := rfl

/-! ### Claims about `ensure_final_strict` -/

/-- C1: for every input mapping (empty, missing keys, non-list `tags`,
non-string `summary` included), `ensure_final_strict` returns — it is a total
function — a record of shape `\x7btags: list of exactly 3 strings, summary:
string\x7d` whose summary contains at most 25 words of the
`\b[\w’'-]+\b` tokenizer. -/
theorem claim_C1_enforcer_totality (obj : List (String × JValue)) :
    (ensure_final_strict obj).tags.length = 3 ∧
      wordCount (ensure_final_strict obj).summary ≤ 25 := by
  constructor
  · show (padLoop 3 ((normLoop _ []).take 3)).length = 3
    exact padLoop3_length _ (List.length_take_le _ _)
  · rw [summary_eq obj]
    by_cases h : 25 <
        (findWords (coerceSummary (dictGet obj "summary" (JValue.jstr ""))).data).length
    · rw [if_pos h]
      unfold wordCount
      have hdata : (String.mk (joinWordsL
          ((findWords (coerceSummary (dictGet obj "summary" (JValue.jstr ""))).data).take 25))).data =
          joinWordsL ((findWords
            (coerceSummary (dictGet obj "summary" (JValue.jstr ""))).data).take 25) := rfl
      rw [hdata, findWords_join _ (fun t ht => findWords_valid t (List.take_subset _ _ ht))]
      rw [List.length_take]
      omega
    · rw [if_neg h]
      unfold wordCount
      omega

/-- C2 (code-bug evaluation): the function's own docstring promises
"tags = 3 lowercase distinct strings", but on input
`\x7b"tags": ["tag2"]\x7d` the placeholder padding `tag<len+1>` collides with
the kept tag and the output carries the duplicate `"tag2"` twice. -/
theorem claim_C2_placeholder_duplicate :
    ensure_final_strict [("tags", JValue.jarr [JValue.jstr "tag2"])] =
      ⟨["tag2", "tag2", "tag3"], ""⟩ := by rfl

/-- C6: whenever the (string-coerced) summary tokenizes into more than 25
words, the enforcer outputs exactly the first 25 of those words, in order,
joined by single spaces. -/
theorem claim_C6_truncation (obj : List (String × JValue))
    (h : 25 < (findWords (coerceSummary (dictGet obj "summary" (JValue.jstr ""))).data).length) :
    (ensure_final_strict obj).summary =
      String.mk (joinWordsL
        ((findWords (coerceSummary (dictGet obj "summary" (JValue.jstr ""))).data).take 25)) := by
  rw [summary_eq obj, if_pos h]

/-- Witness for C6 at a 30-word summary. -/
theorem claim_C6_truncation_witness :
    25 < (findWords (coerceSummary (dictGet
        [("summary", JValue.jstr "one two three four five six seven eight nine ten eleven twelve thirteen fourteen fifteen sixteen seventeen eighteen nineteen twenty apple pear plum fig date kiwi mango lime melon grape")]
        "summary" (JValue.jstr ""))).data).length ∧
    (ensure_final_strict
        [("summary", JValue.jstr "one two three four five six seven eight nine ten eleven twelve thirteen fourteen fifteen sixteen seventeen eighteen nineteen twenty apple pear plum fig date kiwi mango lime melon grape")]).summary =
      String.mk (joinWordsL ((findWords (coerceSummary (dictGet
        [("summary", JValue.jstr "one two three four five six seven eight nine ten eleven twelve thirteen fourteen fifteen sixteen seventeen eighteen nineteen twenty apple pear plum fig date kiwi mango lime melon grape")]
        "summary" (JValue.jstr ""))).data).take 25)) :=
  ⟨by decide, claim_C6_truncation _ (by decide)⟩

/-- C10: a summary that is already a string of at most 25 words is returned
verbatim, punctuation and spacing untouched. -/
theorem claim_C10_short_summary_verbatim (obj : List (String × JValue)) (s : String)
    (hs : dictGet obj "summary" (JValue.jstr "") = JValue.jstr s)
    (h : (findWords s.data).length ≤ 25) :
    (ensure_final_strict obj).summary = s := by
  rw [summary_eq obj, hs]
  show (if 25 < (findWords s.data).length then _ else _) = s
  rw [if_neg (by omega)]
  rfl

/-- Witness for C10: a punctuation-heavy 6-word summary survives verbatim. -/
theorem claim_C10_short_summary_verbatim_witness :
    dictGet [("summary", JValue.jstr "It's  a top-notch, WELL-made thing!")]
        "summary" (JValue.jstr "") =
      JValue.jstr "It's  a top-notch, WELL-made thing!" ∧
    (ensure_final_strict [("summary", JValue.jstr "It's  a top-notch, WELL-made thing!")]).summary =
      "It's  a top-notch, WELL-made thing!" :=
  ⟨by rfl, claim_C10_short_summary_verbatim _ _ (by rfl) (by decide)⟩

/-! ### Claims about `extract_json` and the pipelines -/

/-- C3 (code-bug evaluation): `extract_json` never raises and returns the
empty mapping for `"no braces here"`, but it does not always return a
mapping: on input `"3"` the first `json.loads` attempt succeeds and the
number `3` is returned, contradicting the declared return type
`Dict[str, Any]` and the docstring "Parse first JSON object from text". -/
theorem claim_C3_extractor_nonobject :
    extract_json "no braces here" = JValue.jobj [] ∧
      extract_json "3" = JValue.jnum "3" ∧
      isObjB (extract_json "3") = false :=
  ⟨rfl, rfl, rfl⟩

theorem except_bind_ok {α β : Type} (a : α) (f : α → Except Unit β) :
    (Except.ok a >>= f) = f a := rfl

theorem reviewTagsBad_arr (ts : List JValue) :
    reviewTagsBad (JValue.jarr ts) =
      .ok (ts.isEmpty || decide (ts.length < 3) || ts.any hasPH) := by
  cases ts with
  | nil => rfl
  | cons a l =>
      by_cases hlen : l.length + 1 < 3
      · simp only [reviewTagsBad, pyTruthy, pyLenE, pyIterE, except_bind_ok,
          pure, Except.pure, List.isEmpty_cons, Bool.not_false, Bool.not_true,
          List.length_cons, if_false, Bool.false_eq_true]
        rw [if_pos hlen]
        simp [hlen]
      · simp only [reviewTagsBad, pyTruthy, pyLenE, pyIterE, except_bind_ok,
          pure, Except.pure, List.isEmpty_cons, Bool.not_false, Bool.not_true,
          List.length_cons, if_false, Bool.false_eq_true]
        rw [if_neg hlen]
        simp [hlen]

/-- C5: at the Reviewer stage, whenever the extracted chosen tags are
missing (the default `[]`), a list of fewer than 3 elements, or contain a
`t1`/`t2`/`t3` placeholder substring, the pipeline substitutes the Planner's
first 3 tags — regardless of the reviewer summary; the chosen summary is the
reviewer's own (`summary`, falling back to `chosen_summary`) when truthy,
and the Planner's first summary otherwise. -/
theorem claim_C5_reviewer_fallback
    (rkvs revkvs pkvs : List (String × JValue))
    (ts pts : List JValue) (ps0 : JValue) (psrest : List JValue)
    (hrev : dictGet rkvs "reviewer" (JValue.jobj []) = JValue.jobj revkvs)
    (hct : dictGet revkvs "chosen_tags" (JValue.jarr []) = JValue.jarr ts)
    (hbad : ts = [] ∨ ts.length < 3 ∨ ∃ t ∈ ts, hasPH t = true)
    (hpt : dictGet pkvs "tags" (JValue.jarr []) = JValue.jarr pts)
    (hps : dictGet pkvs "summaries" (JValue.jarr [JValue.jstr ""]) =
      JValue.jarr (ps0 :: psrest)) :
    reviewerStage (JValue.jobj rkvs) (JValue.jobj pkvs) =
      .ok (JValue.jarr (pts.take 3),
        if pyTruthy (dictGet revkvs "summary"
            (dictGet revkvs "chosen_summary" (JValue.jstr "")))
        then dictGet revkvs "summary"
            (dictGet revkvs "chosen_summary" (JValue.jstr ""))
        else ps0) := by
  have hbadB : reviewTagsBad (JValue.jarr ts) = .ok true := by
    rw [reviewTagsBad_arr]
    rcases hbad with h | h | h
    · subst h; rfl
    · simp [h]
    · rcases h with ⟨t, ht, hph⟩
      have : ts.any hasPH = true := List.any_eq_true.mpr ⟨t, ht, hph⟩
      simp [this]
  unfold reviewerStage
  simp only [pyGetE, hrev, except_bind_ok, hct, hbadB, hpt, hps,
    pySliceTake3, pyIndexZero]
  by_cases hcs : pyTruthy (dictGet revkvs "summary"
      (dictGet revkvs "chosen_summary" (JValue.jstr ""))) = true
  · rw [if_pos hcs]
    simp [hcs, except_bind_ok, pure, Except.pure]
  · rw [if_neg hcs]
    simp only [Bool.not_eq_true] at hcs
    simp [hcs, except_bind_ok, pure, Except.pure, hps, pyGetE, pyIndexZero]

/-- Witness for C5: the template echo — extracted reviewer tags
`["t1","t2","t3"]` alongside a present reviewer summary — still triggers the
substitution of the Planner's first 3 tags, while the reviewer summary is
kept. -/
theorem claim_C5_reviewer_fallback_witness :
    reviewerStage
        (JValue.jobj [("reviewer", JValue.jobj
          [("chosen_tags",
            JValue.jarr [JValue.jstr "t1", JValue.jstr "t2", JValue.jstr "t3"]),
           ("summary", JValue.jstr "...")])])
        (JValue.jobj [("tags", JValue.jarr
            [JValue.jstr "alpha", JValue.jstr "beta", JValue.jstr "gamma", JValue.jstr "delta"]),
          ("summaries", JValue.jarr [JValue.jstr "first summary", JValue.jstr "second"])]) =
      .ok (JValue.jarr [JValue.jstr "alpha", JValue.jstr "beta", JValue.jstr "gamma"],
        JValue.jstr "...") := by
  rw [claim_C5_reviewer_fallback
    [("reviewer", JValue.jobj
      [("chosen_tags",
        JValue.jarr [JValue.jstr "t1", JValue.jstr "t2", JValue.jstr "t3"]),
       ("summary", JValue.jstr "...")])]
    [("chosen_tags",
      JValue.jarr [JValue.jstr "t1", JValue.jstr "t2", JValue.jstr "t3"]),
     ("summary", JValue.jstr "...")]
    [("tags", JValue.jarr
        [JValue.jstr "alpha", JValue.jstr "beta", JValue.jstr "gamma", JValue.jstr "delta"]),
      ("summaries", JValue.jarr [JValue.jstr "first summary", JValue.jstr "second"])]
    [JValue.jstr "t1", JValue.jstr "t2", JValue.jstr "t3"]
    [JValue.jstr "alpha", JValue.jstr "beta", JValue.jstr "gamma", JValue.jstr "delta"]
    (JValue.jstr "first summary") [JValue.jstr "second"]
    rfl rfl
    (Or.inr (Or.inr ⟨JValue.jstr "t1", by simp, by rfl⟩)) rfl rfl]
  rfl

/-- C4 counterexample: in the phi3 variant (`agents_demo.py`), a Planner
reply that is not JSON is a fatal stage failure — `main` prints an error and
returns after the first model call with no published output, instead of
degrading to a fallback. -/
theorem claim_C4_fatal_parse_phi3 :
    mainB true (fun _ => "not json") = .ok (none, 1) := rfl

/-- C4 (amended): in the smollm variant (`agent_demo.py`), when extraction
fails at every stage (`extract_json` returns the empty mapping), the pipeline
degrades stage by stage — hardcoded Planner defaults, Planner values at the
Reviewer, Reviewer choices at the Finalizer — and completes with the
hardcoded publish record. -/
theorem claim_C4_smollm_fallback (p r f : String)
    (hp : extract_json p = JValue.jobj [])
    (hr : extract_json r = JValue.jobj [])
    (hf : extract_json f = JValue.jobj []) :
    mainA p r f =
      .ok ⟨["vector clocks", "distributed systems", "causality"],
        "Vector clocks track event causality in distributed systems without synchronized time"⟩ := by
  unfold mainA plannerStage finalStage
  rw [hp, hr, hf]
  rfl

/-- Witness for C4's amended statement at three junk replies. -/
theorem claim_C4_smollm_fallback_witness :
    extract_json "planner said nothing useful" = JValue.jobj [] ∧
    mainA "planner said nothing useful" "reviewer hmm" "finalizer nope" =
      .ok ⟨["vector clocks", "distributed systems", "causality"],
        "Vector clocks track event causality in distributed systems without synchronized time"⟩ :=
  ⟨rfl, claim_C4_smollm_fallback _ _ _ rfl rfl rfl⟩

theorem waitLoop_spec (probe : Nat → Option Nat) :
    ∀ fuel i, (waitLoop probe i fuel).2.1 ≤ fuel ∧
      (∀ d ∈ (waitLoop probe i fuel).2.2, d = 1) ∧
      ((∀ j, i ≤ j → j < i + fuel → probe j ≠ some 200) →
        (waitLoop probe i fuel).1 = false) := by
  intro fuel
  induction fuel with
  | zero => intro i; exact ⟨by simp [waitLoop], by simp [waitLoop], fun _ => rfl⟩
  | succ f ih =>
      intro i
      obtain ⟨ih1, ih2, ih3⟩ := ih (i + 1)
      rcases hw : waitLoop probe (i + 1) f with ⟨b, n, sl⟩
      rw [hw] at ih1 ih2 ih3
      dsimp only at ih1 ih2 ih3
      cases hp : probe i with
      | some st =>
          by_cases hst : st = 200
          · subst hst
            refine ⟨?_, ?_, ?_⟩
            · simp [waitLoop, hp]
            · simp [waitLoop, hp]
            · intro h
              exact absurd hp (h i (Nat.le_refl i) (by omega))
          · refine ⟨?_, ?_, ?_⟩
            · simp only [waitLoop, hp, if_neg hst, hw]
              omega
            · simp only [waitLoop, hp, if_neg hst, hw]
              exact ih2
            · intro h
              simp only [waitLoop, hp, if_neg hst, hw]
              exact ih3 (fun j hj1 hj2 => h j (by omega) (by omega))
      | none =>
          refine ⟨?_, ?_, ?_⟩
          · simp only [waitLoop, hp, hw]
            omega
          · simp only [waitLoop, hp, hw]
            intro d hd
            rcases List.mem_cons.mp hd with h | h
            · exact h
            · exact ih2 d h
          · intro h
            simp only [waitLoop, hp, hw]
            exact ih3 (fun j hj1 hj2 => h j (by omega) (by omega))

/-- C9: the health probe makes at most 5 attempts, every sleep between
failing attempts is the fixed 1 second, the probe returns `False` when no
attempt sees status 200, and a `False` probe makes `main` of
`agents_demo.py` return at once: zero model calls, no published output. -/
theorem claim_C9_health_probe (probe : Nat → Option Nat) :
    (wait_ollama probe).2.1 ≤ 5 ∧
      (∀ d ∈ (wait_ollama probe).2.2, d = 1) ∧
      ((∀ i, i < 5 → probe i ≠ some 200) → (wait_ollama probe).1 = false) ∧
      (∀ asks, mainB false asks = .ok (none, 0)) := by
  obtain ⟨h1, h2, h3⟩ := waitLoop_spec probe 5 0
  exact ⟨h1, h2, fun h => h3 (fun j hj1 hj2 => h j (by omega)), fun _ => rfl⟩

/-- Witness for C9 at a probe that always answers 500. -/
theorem claim_C9_health_probe_witness :
    (∀ i, i < 5 → (fun _ => (some 500 : Option Nat)) i ≠ some 200) ∧
      (wait_ollama (fun _ => some 500)).1 = false ∧
      mainB false (fun _ => "x") = .ok (none, 0) :=
  ⟨by decide, (claim_C9_health_probe (fun _ => some 500)).2.2.1 (by decide),
    (claim_C9_health_probe (fun _ => some 500)).2.2.2 (fun _ => "x")⟩

/-! ### List helpers for the extractor proofs -/

theorem getLast?_cons_ne {c : Char} {l : List Char} (h : l ≠ []) :
    (c :: l).getLast? = l.getLast? := by
  cases l with
  | nil => exact absurd rfl h
  | cons y ys => exact List.getLast?_cons_cons

theorem takeWhile_append_all {p : Char → Bool} {a b : List Char}
    (ha : ∀ c ∈ a, p c = true) (hb : ∀ c, b.head? = some c → p c = false) :
    (a ++ b).takeWhile p = a := by
  induction a with
  | nil =>
      cases b with
      | nil => rfl
      | cons x xs =>
          simp only [List.nil_append]
          rw [List.takeWhile_cons_of_neg]
          simp [hb x rfl]
  | cons x xs ih =>
      rw [List.cons_append, List.takeWhile_cons_of_pos (ha x (by simp))]
      rw [ih (fun c hc => ha c (by simp [hc]))]

theorem dropWhile_append_all {p : Char → Bool} {a b : List Char}
    (ha : ∀ c ∈ a, p c = true) (hb : ∀ c, b.head? = some c → p c = false) :
    (a ++ b).dropWhile p = b := by
  induction a with
  | nil =>
      cases b with
      | nil => rfl
      | cons x xs =>
          simp only [List.nil_append]
          rw [List.dropWhile_cons_of_neg]
          simp [hb x rfl]
  | cons x xs ih =>
      rw [List.cons_append, List.dropWhile_cons_of_pos (ha x (by simp))]
      exact ih (fun c hc => ha c (by simp [hc]))

theorem suffix_getLast? {s l : List Char} (h : s <:+ l) (hne : s ≠ []) :
    l.getLast? = s.getLast? := by
  obtain ⟨t, rfl⟩ := h
  exact List.getLast?_append_of_ne_nil t hne

/-! ### Number-scan lemmas -/

theorem range19_isDigit {c : Char} (h1 : '1' ≤ c) (h2 : c ≤ '9') :
    c.isDigit = true := by
  simp only [Char.isDigit, Bool.and_eq_true, decide_eq_true_eq]
  exact ⟨le_trans (show ('0':Char) ≤ '1' by decide) h1, h2⟩

theorem numExt_false_not_digit {c : Char} (h : numExt c = false) :
    c.isDigit = false := by
  simp only [numExt, Bool.or_eq_false_iff] at h
  exact h.1.1.1

theorem numScanInt_core {core rest : List Char} (hc : intCore core = true)
    (hr : ∀ c, rest.head? = some c → numExt c = false) :
    numScanInt (core ++ rest) = some (core, rest) := by
  cases core with
  | nil => simp [intCore] at hc
  | cons c cs =>
      rw [intCore] at hc
      by_cases h0 : c = '0'
      · rw [if_pos h0] at hc
        have : cs = [] := by simpa [List.isEmpty_iff] using hc
        subst this
        subst h0
        simp [numScanInt]
      · rw [if_neg h0] at hc
        simp only [Bool.and_eq_true, decide_eq_true_eq] at hc
        obtain ⟨⟨hc1, hc2⟩, hcs⟩ := hc
        have hdig : c.isDigit = true := range19_isDigit hc1 hc2
        rw [List.cons_append, numScanInt, if_neg h0, if_pos hdig]
        rw [takeWhile_append_all (by simpa [List.all_eq_true] using hcs)
          (fun x hx => numExt_false_not_digit (hr x hx))]
        rw [dropWhile_append_all (by simpa [List.all_eq_true] using hcs)
          (fun x hx => numExt_false_not_digit (hr x hx))]

theorem numScanFrac_stop {l : List Char}
    (h : ∀ c, l.head? = some c → numExt c = false) : numScanFrac l = ([], l) := by
  cases l with
  | nil => rfl
  | cons c r =>
      have : c ≠ '.' := by
        intro he
        have := h c rfl
        rw [he] at this
        simp [numExt] at this
      rw [numScanFrac, if_neg this]

theorem numScanExp_stop {l : List Char}
    (h : ∀ c, l.head? = some c → numExt c = false) : numScanExp l = ([], l) := by
  cases l with
  | nil => rfl
  | cons c r =>
      have : (c = 'e' || c = 'E') = false := by
        have := h c rfl
        simp only [numExt, Bool.or_eq_false_iff] at this
        simp [this.1.2, this.2]
      rw [numScanExp.eq_def]
      dsimp only
      rw [this]
      simp

theorem numScan_intLex {lex : String} {rest : List Char} (hl : isIntLex lex = true)
    (hr : ∀ c, rest.head? = some c → numExt c = false) :
    numScan (lex.data ++ rest) = some (lex.data, rest) := by
  rw [isIntLex] at hl
  cases hld : lex.data with
  | nil => rw [hld] at hl; simp at hl
  | cons c cs =>
      rw [hld] at hl
      dsimp only at hl
      by_cases hm : c = '-'
      · rw [if_pos hm] at hl
        rw [List.cons_append, numScan.eq_def]
        dsimp only
        rw [if_pos hm, numScanInt_core hl hr]
        dsimp only
        rw [numScanFrac_stop hr]
        dsimp only
        rw [numScanExp_stop hr]
        simp [hm]
      · rw [if_neg hm] at hl
        rw [List.cons_append, numScan.eq_def]
        dsimp only
        rw [if_neg hm, ← List.cons_append, numScanInt_core hl hr]
        dsimp only
        rw [numScanFrac_stop hr]
        dsimp only
        rw [numScanExp_stop hr]
        simp

theorem numScanInt_consumed {l ip r : List Char}
    (h : numScanInt l = some (ip, r)) :
    l = ip ++ r ∧ ip ≠ [] ∧ ∃ c, ip.getLast? = some c ∧ c.isDigit = true := by
  cases l with
  | nil => simp [numScanInt] at h
  | cons c cs =>
      rw [numScanInt] at h
      by_cases h0 : c = '0'
      · rw [if_pos h0] at h
        obtain ⟨h1, h2⟩ := Prod.mk.injEq .. ▸ Option.some.injEq .. ▸ h
        subst h0
        refine ⟨by simp [← h1, ← h2], by simp [← h1], '0', by simp [← h1], by decide⟩
      · rw [if_neg h0] at h
        by_cases hd : c.isDigit
        · rw [if_pos hd] at h
          obtain ⟨h1, h2⟩ := Prod.mk.injEq .. ▸ Option.some.injEq .. ▸ h
          subst h1 h2
          refine ⟨by simp [List.takeWhile_append_dropWhile], by simp, ?_⟩
          cases htw : cs.takeWhile Char.isDigit with
          | nil => exact ⟨c, by simp [htw], hd⟩
          | cons d ds =>
              have hne : cs.takeWhile Char.isDigit ≠ [] := by simp [htw]
              refine ⟨(cs.takeWhile Char.isDigit).getLast hne, ?_, ?_⟩
              · rw [← htw, getLast?_cons_ne hne, List.getLast?_eq_getLast _ hne]
              · exact List.mem_takeWhile_imp (List.getLast_mem hne)
        · rw [if_neg hd] at h; simp at h

theorem numScanFrac_consumed {l fp r : List Char} (h : numScanFrac l = (fp, r)) :
    l = fp ++ r ∧ (fp = [] ∨ ∃ c, fp.getLast? = some c ∧ c.isDigit = true) := by
  cases l with
  | nil =>
      obtain ⟨h1, h2⟩ := Prod.mk.injEq .. ▸ h
      simp [← h1, ← h2]
  | cons c cs =>
      rw [numScanFrac] at h
      by_cases hdot : c = '.'
      · rw [if_pos hdot] at h
        cases htw : cs.takeWhile Char.isDigit with
        | nil =>
            rw [htw] at h
            obtain ⟨h1, h2⟩ := Prod.mk.injEq .. ▸ h
            simp [← h1, ← h2]
        | cons d ds =>
            rw [htw] at h
            obtain ⟨h1, h2⟩ := Prod.mk.injEq .. ▸ h
            have hne : cs.takeWhile Char.isDigit ≠ [] := by simp [htw]
            constructor
            · rw [← h1, ← h2, hdot, ← htw]
              simp [List.takeWhile_append_dropWhile]
            · refine Or.inr ⟨(cs.takeWhile Char.isDigit).getLast hne, ?_, ?_⟩
              · rw [← h1, ← htw, getLast?_cons_ne hne, List.getLast?_eq_getLast _ hne]
              · exact List.mem_takeWhile_imp (List.getLast_mem hne)
      · rw [if_neg hdot] at h
        obtain ⟨h1, h2⟩ := Prod.mk.injEq .. ▸ h
        simp [← h1, ← h2]

theorem numScanExp_consumed {l ep r : List Char} (h : numScanExp l = (ep, r)) :
    l = ep ++ r ∧ (ep = [] ∨ ∃ c, ep.getLast? = some c ∧ c.isDigit = true) := by
  cases l with
  | nil =>
      obtain ⟨h1, h2⟩ := Prod.mk.injEq .. ▸ h
      simp [← h1, ← h2]
  | cons c cs =>
      rw [numScanExp.eq_def] at h
      dsimp only at h
      by_cases he : (c = 'e' || c = 'E') = true
      · rw [if_pos he] at h
        cases cs with
        | nil =>
            obtain ⟨h1, h2⟩ := Prod.mk.injEq .. ▸ h
            simp [← h1, ← h2]
        | cons s r2 =>
            dsimp only at h
            by_cases hs : (s = '+' || s = '-') = true
            · rw [if_pos hs] at h
              cases htw : r2.takeWhile Char.isDigit with
              | nil =>
                  rw [htw] at h
                  obtain ⟨h1, h2⟩ := Prod.mk.injEq .. ▸ h
                  simp [← h1, ← h2]
              | cons d ds =>
                  rw [htw] at h
                  obtain ⟨h1, h2⟩ := Prod.mk.injEq .. ▸ h
                  have hne : r2.takeWhile Char.isDigit ≠ [] := by simp [htw]
                  constructor
                  · rw [← h1, ← h2, ← htw]
                    simp [List.takeWhile_append_dropWhile]
                  · refine Or.inr ⟨(r2.takeWhile Char.isDigit).getLast hne, ?_, ?_⟩
                    · rw [← h1, ← htw, getLast?_cons_ne (by simp [hne]),
                        getLast?_cons_ne hne, List.getLast?_eq_getLast _ hne]
                    · exact List.mem_takeWhile_imp (List.getLast_mem hne)
            · rw [if_neg hs] at h
              cases htw : (s :: r2).takeWhile Char.isDigit with
              | nil =>
                  rw [htw] at h
                  obtain ⟨h1, h2⟩ := Prod.mk.injEq .. ▸ h
                  simp [← h1, ← h2]
              | cons d ds =>
                  rw [htw] at h
                  obtain ⟨h1, h2⟩ := Prod.mk.injEq .. ▸ h
                  have hne : (s :: r2).takeWhile Char.isDigit ≠ [] := by simp [htw]
                  constructor
                  · rw [← h1, ← h2, ← htw]
                    simp [List.takeWhile_append_dropWhile]
                  · refine Or.inr ⟨((s :: r2).takeWhile Char.isDigit).getLast hne, ?_, ?_⟩
                    · rw [← h1, ← htw, getLast?_cons_ne hne,
                        List.getLast?_eq_getLast _ hne]
                    · exact List.mem_takeWhile_imp (List.getLast_mem hne)
      · rw [if_neg he] at h
        obtain ⟨h1, h2⟩ := Prod.mk.injEq .. ▸ h
        simp [← h1, ← h2]

theorem numScan_consumed {l lex r : List Char} (h : numScan l = some (lex, r)) :
    l = lex ++ r ∧ ∃ c, lex.getLast? = some c ∧ c.isDigit = true := by
  cases l with
  | nil => simp [numScan] at h
  | cons c cs =>
      rw [numScan] at h
      by_cases hm : c = '-'
      · rw [if_pos hm] at h
        cases hint : numScanInt cs with
        | none => rw [hint] at h; simp at h
        | some pr =>
            obtain ⟨ip, r1⟩ := pr
            rw [hint] at h
            dsimp only at h
            obtain ⟨hint1, hintne, cd, hlast, hdig⟩ := numScanInt_consumed hint
            rcases hfr : numScanFrac r1 with ⟨fp, r2⟩
            rcases hex : numScanExp r2 with ⟨ep, r3⟩
            rw [hfr] at h
            dsimp only at h
            rw [hex] at h
            dsimp only at h
            obtain ⟨h1, h2⟩ := Prod.mk.injEq .. ▸ Option.some.injEq .. ▸ h
            obtain ⟨hfr1, hfr2⟩ := numScanFrac_consumed hfr
            obtain ⟨hex1, hex2⟩ := numScanExp_consumed hex
            constructor
            · rw [← h1, ← h2, hm, hint1, hfr1, hex1]
              simp
            · rw [← h1]
              rcases hex2 with hep | ⟨ce, hce, hcd⟩
              · subst hep
                rcases hfr2 with hfp | ⟨cf, hcf, hcd2⟩
                · subst hfp
                  refine ⟨cd, ?_, hdig⟩
                  rw [List.append_nil, List.append_nil, getLast?_cons_ne hintne]
                  exact hlast
                · have hfpne : fp ≠ [] := by
                    intro h0; rw [h0] at hcf; simp at hcf
                  refine ⟨cf, ?_, hcd2⟩
                  rw [List.append_nil, List.getLast?_append_of_ne_nil _ hfpne]
                  exact hcf
              · have hepne : ep ≠ [] := by
                  intro h0; rw [h0] at hce; simp at hce
                refine ⟨ce, ?_, hcd⟩
                rw [List.getLast?_append_of_ne_nil _ hepne]
                exact hce
      · rw [if_neg hm] at h
        cases hint : numScanInt (c :: cs) with
        | none => rw [hint] at h; simp at h
        | some pr =>
            obtain ⟨ip, r1⟩ := pr
            rw [hint] at h
            dsimp only at h
            obtain ⟨hint1, hintne, cd, hlast, hdig⟩ := numScanInt_consumed hint
            rcases hfr : numScanFrac r1 with ⟨fp, r2⟩
            rcases hex : numScanExp r2 with ⟨ep, r3⟩
            rw [hfr] at h
            dsimp only at h
            rw [hex] at h
            dsimp only at h
            obtain ⟨h1, h2⟩ := Prod.mk.injEq .. ▸ Option.some.injEq .. ▸ h
            obtain ⟨hfr1, hfr2⟩ := numScanFrac_consumed hfr
            obtain ⟨hex1, hex2⟩ := numScanExp_consumed hex
            constructor
            · rw [← h1, ← h2, hint1, hfr1, hex1]
              simp
            · rw [← h1]
              rcases hex2 with hep | ⟨ce, hce, hcd⟩
              · subst hep
                rcases hfr2 with hfp | ⟨cf, hcf, hcd2⟩
                · subst hfp
                  refine ⟨cd, ?_, hdig⟩
                  rw [List.append_nil, List.append_nil]
                  exact hlast
                · have hfpne : fp ≠ [] := by
                    intro h0; rw [h0] at hcf; simp at hcf
                  refine ⟨cf, ?_, hcd2⟩
                  rw [List.append_nil, List.getLast?_append_of_ne_nil _ hfpne]
                  exact hcf
              · have hepne : ep ≠ [] := by
                  intro h0; rw [h0] at hce; simp at hce
                refine ⟨ce, ?_, hcd⟩
                rw [List.getLast?_append_of_ne_nil _ hepne]
                exact hce

/-! ### Parser helper lemmas -/

theorem stripPre_pre : ∀ (pre rest : List Char), stripPre pre (pre ++ rest) = some rest := by
  intro pre
  induction pre with
  | nil => intro rest; rfl
  | cons p ps ih => intro rest; rw [List.cons_append, stripPre, if_pos rfl, ih]

theorem objInsert_fresh : ∀ (acc : List (String × JValue)) (k : String) (v : JValue),
    (∀ q ∈ acc, q.1 ≠ k) → objInsert acc k v = acc ++ [(k, v)] := by
  intro acc
  induction acc with
  | nil => intro k v _; rfl
  | cons q acc ih =>
      intro k v h
      obtain ⟨k1, v1⟩ := q
      rw [objInsert]
      rw [if_neg (by simpa using h (k1, v1) (by simp))]
      rw [ih k v (fun q hq => h q (by simp [hq]))]
      simp

theorem digit_ne {c d : Char} (h : c.isDigit = true) (hd : d.isDigit = false) :
    c ≠ d := by
  intro he
  subst he
  rw [h] at hd
  cases hd

theorem digit_not_jsonWs {c : Char} (h : c.isDigit = true) : isJsonWs c = false := by
  by_contra hne
  have hws : isJsonWs c = true := by simpa using hne
  simp only [isJsonWs, Bool.or_eq_true, beq_iff_eq] at hws
  rcases hws with ((h1 | h1) | h1) | h1 <;> (subst h1; simp [Char.isDigit] at h)

theorem skipWs_cons_not {c : Char} (h : isJsonWs c = false) (l : List Char) :
    skipWs (c :: l) = c :: l := by
  unfold skipWs
  rw [List.dropWhile_cons_of_neg (by simp [h])]

theorem intLex_head {lex : String} (h : isIntLex lex = true) :
    ∃ c cs, lex.data = c :: cs ∧ isJsonWs c = false ∧
      (c = '-' ∨ c.isDigit = true) := by
  rw [isIntLex] at h
  cases hld : lex.data with
  | nil => rw [hld] at h; simp at h
  | cons c cs =>
      rw [hld] at h
      dsimp only at h
      by_cases hm : c = '-'
      · exact ⟨c, cs, rfl, by subst hm; decide, Or.inl hm⟩
      · rw [if_neg hm, intCore] at h
        by_cases h0 : c = '0'
        · exact ⟨c, cs, rfl, by subst h0; decide, Or.inr (by subst h0; decide)⟩
        · rw [if_neg h0] at h
          simp only [Bool.and_eq_true, decide_eq_true_eq] at h
          have := range19_isDigit h.1.1 h.1.2
          exact ⟨c, cs, rfl, digit_not_jsonWs this, Or.inr this⟩

theorem skipWs_render {v : JValue} (h : plainV v = true) (X : List Char) :
    skipWs (render v ++ X) = render v ++ X := by
  cases v with
  | jnull => exact skipWs_cons_not (by decide) _
  | jbool b =>
      cases b
      · exact skipWs_cons_not (by decide) _
      · exact skipWs_cons_not (by decide) _
  | jnum lex =>
      obtain ⟨c, cs, hld, hws, -⟩ := intLex_head (by simpa [plainV] using h)
      rw [render, hld, List.cons_append]
      exact skipWs_cons_not hws _
  | jstr s =>
      rw [render, List.cons_append]
      exact skipWs_cons_not (by decide) _
  | jarr xs =>
      rw [render, List.cons_append]
      exact skipWs_cons_not (by decide) _
  | jobj kvs =>
      rw [render, List.cons_append]
      exact skipWs_cons_not (by decide) _

theorem members_head (p : String × JValue) (l : List (String × JValue)) :
    ∃ t, renderMembers (p :: l) = dqC :: t := by
  obtain ⟨k, v⟩ := p
  cases l with
  | nil => exact ⟨_, by rw [renderMembers, List.cons_append]⟩
  | cons m ms => exact ⟨_, by rw [renderMembers, List.cons_append, List.cons_append]⟩

/-! ### String-scan lemmas -/

theorem strScan_plain : ∀ (s : List Char) (acc rest : List Char),
    (∀ c ∈ s, plainChar c = true) →
    strScan (s ++ dqC :: rest) acc = some (acc.reverse ++ s, rest) := by
  intro s
  induction s with
  | nil =>
      intro acc rest _
      rw [List.nil_append, strScan.eq_def]
      simp
  | cons c s ih =>
      intro acc rest hall
      have hc := hall c (by simp)
      simp only [plainChar, Bool.and_eq_true, bne_iff_ne, ne_eq,
        decide_eq_true_eq] at hc
      rw [List.cons_append, strScan.eq_def]
      dsimp only
      rw [if_neg (by exact hc.1.1.1.1),
        if_neg (by exact hc.1.1.1.2), if_neg (by omega)]
      rw [ih (c :: acc) rest (fun x hx => hall x (by simp [hx]))]
      simp

theorem strScan_consumed : ∀ (n : Nat) (m : List Char), m.length ≤ n →
    ∀ (acc s rest : List Char), strScan m acc = some (s, rest) →
    ∃ con, m = con ++ rest ∧ con.getLast? = some dqC := by
  intro n
  induction n with
  | zero =>
      intro m hm acc s rest h
      have : m = [] := List.length_eq_zero.mp (Nat.le_zero.mp hm)
      subst this
      simp [strScan] at h
  | succ n ih =>
      intro m hm acc s rest h
      cases m with
      | nil => simp [strScan] at h
      | cons c cs =>
          rw [strScan.eq_def] at h
          dsimp only at h
          by_cases hdq : c = dqC
          · rw [if_pos hdq] at h
            obtain ⟨-, hr⟩ := Prod.mk.injEq .. ▸ Option.some.injEq .. ▸ h
            exact ⟨[c], by simp [← hr, hdq], by simp [hdq]⟩
          · rw [if_neg hdq] at h
            by_cases hbs : c = bslC
            · rw [if_pos hbs] at h
              cases cs with
              | nil => simp at h
              | cons e cs2 =>
                  dsimp only at h
                  have step : ∀ (x : Char) (m2 : List Char), m2.length ≤ n →
                      strScan m2 (x :: acc) = some (s, rest) →
                      ∃ con, c :: e :: m2 = con ++ rest ∧ con.getLast? = some dqC := by
                    intro x m2 hm2 hh
                    obtain ⟨con, hcon, hlast⟩ := ih m2 hm2 (x :: acc) s rest hh
                    have hconne : con ≠ [] := by
                      intro hc0; rw [hc0] at hlast; simp at hlast
                    refine ⟨c :: e :: con, by simp [hcon], ?_⟩
                    rw [getLast?_cons_ne (by simp [hconne]), getLast?_cons_ne hconne]
                    exact hlast
                  have hlen2 : cs2.length ≤ n := by
                    simp only [List.length_cons] at hm; omega
                  by_cases h1 : e = dqC
                  · rw [if_pos h1] at h; exact step _ _ hlen2 h
                  · rw [if_neg h1] at h
                    by_cases h2 : e = bslC
                    · rw [if_pos h2] at h; exact step _ _ hlen2 h
                    · rw [if_neg h2] at h
                      by_cases h3 : e = '/'
                      · rw [if_pos h3] at h; exact step _ _ hlen2 h
                      · rw [if_neg h3] at h
                        by_cases h4 : e = 'b'
                        · rw [if_pos h4] at h; exact step _ _ hlen2 h
                        · rw [if_neg h4] at h
                          by_cases h5 : e = 'f'
                          · rw [if_pos h5] at h; exact step _ _ hlen2 h
                          · rw [if_neg h5] at h
                            by_cases h6 : e = 'n'
                            · rw [if_pos h6] at h; exact step _ _ hlen2 h
                            · rw [if_neg h6] at h
                              by_cases h7 : e = 'r'
                              · rw [if_pos h7] at h; exact step _ _ hlen2 h
                              · rw [if_neg h7] at h
                                by_cases h8 : e = 't'
                                · rw [if_pos h8] at h; exact step _ _ hlen2 h
                                · rw [if_neg h8] at h
                                  by_cases h9 : e = 'u'
                                  · rw [if_pos h9] at h
                                    cases cs2 with
                                    | nil => simp at h
                                    | cons h1c t1 =>
                                      cases t1 with
                                      | nil => simp at h
                                      | cons h2c t2 =>
                                        cases t2 with
                                        | nil => simp at h
                                        | cons h3c t3 =>
                                          cases t3 with
                                          | nil => simp at h
                                          | cons h4c t4 =>
                                            dsimp only at h
                                            cases hv1 : hexVal h1c with
                                            | none => rw [hv1] at h; simp at h
                                            | some a =>
                                              cases hv2 : hexVal h2c with
                                              | none => rw [hv1, hv2] at h; simp at h
                                              | some b =>
                                                cases hv3 : hexVal h3c with
                                                | none => rw [hv1, hv2, hv3] at h; simp at h
                                                | some c3 =>
                                                  cases hv4 : hexVal h4c with
                                                  | none => rw [hv1, hv2, hv3, hv4] at h; simp at h
                                                  | some d =>
                                                    rw [hv1, hv2, hv3, hv4] at h
                                                    simp only at h
                                                    have hlen4 : t4.length ≤ n := by
                                                      simp only [List.length_cons] at hm; omega
                                                    obtain ⟨con, hcon, hlast⟩ :=
                                                      ih t4 hlen4 _ s rest h
                                                    have hconne : con ≠ [] := by
                                                      intro hc0; rw [hc0] at hlast; simp at hlast
                                                    refine ⟨c :: e :: h1c :: h2c :: h3c :: h4c :: con,
                                                      by simp [hcon], ?_⟩
                                                    rw [getLast?_cons_ne (by simp [hconne]),
                                                      getLast?_cons_ne (by simp [hconne]),
                                                      getLast?_cons_ne (by simp [hconne]),
                                                      getLast?_cons_ne (by simp [hconne]),
                                                      getLast?_cons_ne (by simp [hconne]),
                                                      getLast?_cons_ne hconne]
                                                    exact hlast
                                  · rw [if_neg h9] at h
                                    simp at h
            · rw [if_neg hbs] at h
              by_cases hctl : c.toNat < 32
              · rw [if_pos hctl] at h; simp at h
              · rw [if_neg hctl] at h
                have hlen : cs.length ≤ n := by
                  simp only [List.length_cons] at hm; omega
                obtain ⟨con, hcon, hlast⟩ := ih cs hlen (c :: acc) s rest h
                have hconne : con ≠ [] := by
                  intro hc0; rw [hc0] at hlast; simp at hlast
                exact ⟨c :: con, by simp [hcon], by rw [getLast?_cons_ne hconne]; exact hlast⟩

/-! ### The parser accepts exactly the rendering of a plain value -/

theorem render_head_forms {v : JValue} (h : plainV v = true) :
    ∃ c t, render v = c :: t ∧ isJsonWs c = false ∧
      c ≠ ']' ∧ c ≠ cbC ∧ c ≠ ',' := by
  cases v with
  | jnull => exact ⟨'n', _, rfl, by decide, by decide, by decide, by decide⟩
  | jbool b =>
      cases b
      · exact ⟨'f', _, rfl, by decide, by decide, by decide, by decide⟩
      · exact ⟨'t', _, rfl, by decide, by decide, by decide, by decide⟩
  | jnum lex =>
      obtain ⟨c, cs, hld, hws, hcase⟩ := intLex_head (by simpa [plainV] using h)
      refine ⟨c, cs, by rw [render, hld], hws, ?_, ?_, ?_⟩ <;>
        rcases hcase with hm | hd
      · subst hm; decide
      · exact digit_ne hd (by decide)
      · subst hm; decide
      · exact digit_ne hd (by decide)
      · subst hm; decide
      · exact digit_ne hd (by decide)
  | jstr s =>
      exact ⟨dqC, _, by rw [render, List.cons_append], by decide, by decide, by decide,
        by decide⟩
  | jarr xs =>
      exact ⟨'[', _, by rw [render, List.cons_append], by decide, by decide, by decide,
        by decide⟩
  | jobj kvs =>
      exact ⟨obC, _, by rw [render, List.cons_append], by decide, by decide, by decide,
        by decide⟩

theorem elems_cons_split (x : JValue) (xs2 : List JValue) :
    ∃ u, renderElems (x :: xs2) = render x ++ u ∧
      (u = [] ∨ ∃ w, u = ',' :: w) := by
  cases xs2 with
  | nil => exact ⟨[], by simp [renderElems], Or.inl rfl⟩
  | cons y ys => exact ⟨',' :: renderElems (y :: ys), by rw [renderElems], Or.inr ⟨_, rfl⟩⟩

theorem plainElems_cons {x : JValue} {xs : List JValue}
    (h : plainElems (x :: xs) = true) : plainV x = true ∧ plainElems xs = true := by
  rw [plainElems, Bool.and_eq_true] at h
  exact h

theorem plainMembers_cons {k : String} {v : JValue} {kvs : List (String × JValue)}
    (h : plainMembers ((k, v) :: kvs) = true) :
    (∀ c ∈ k.data, plainChar c = true) ∧ plainV v = true ∧ plainMembers kvs = true := by
  rw [plainMembers] at h
  simp only [Bool.and_eq_true] at h
  exact ⟨List.all_eq_true.mp h.1.1, h.1.2, h.2⟩

theorem keysDistinct_cons {k : String} {v : JValue} {kvs : List (String × JValue)}
    (h : keysDistinct ((k, v) :: kvs) = true) :
    (∀ p ∈ kvs, (p : String × JValue).1 ≠ k) ∧ keysDistinct kvs = true := by
  rw [keysDistinct] at h
  simp only [Bool.and_eq_true, Bool.not_eq_true'] at h
  constructor
  · intro p hp
    intro he
    have : kvs.any (fun q => q.1 == k) = true :=
      List.any_eq_true.mpr ⟨p, hp, by simp [he]⟩
    rw [this] at h
    exact absurd h.1 (by simp)
  · exact h.2

theorem pvFuel_pos (v : JValue) : 1 ≤ pvFuel v := by
  cases v <;> simp [pvFuel]

theorem parse_render_bundle : ∀ fuel : Nat,
    (∀ (v : JValue) (rest : List Char), plainV v = true →
      (∀ c, rest.head? = some c → numExt c = false) →
      pvFuel v ≤ fuel →
      parseValue fuel (render v ++ rest) = some (v, rest)) ∧
    (∀ (kvs : List (String × JValue)) (rest : List Char)
        (acc : List (String × JValue)), plainMembers kvs = true →
      keysDistinct kvs = true → kvs ≠ [] →
      (∀ p ∈ kvs, ∀ q ∈ acc, (q : String × JValue).1 ≠ (p : String × JValue).1) →
      pmFuel kvs ≤ fuel →
      parseMembers fuel (renderMembers kvs ++ cbC :: rest) acc = some (acc ++ kvs, rest)) ∧
    (∀ (xs : List JValue) (rest : List Char) (acc : List JValue),
      plainElems xs = true → xs ≠ [] →
      peFuel xs ≤ fuel →
      parseElems fuel (renderElems xs ++ ']' :: rest) acc = some (acc ++ xs, rest)) := by
  intro fuel
  induction fuel with
  | zero =>
      refine ⟨fun v rest _ _ hf => absurd (le_trans (pvFuel_pos v) hf) (by omega),
        fun kvs rest acc _ _ hne _ hf => ?_,
        fun xs rest acc _ hne hf => ?_⟩
      · cases kvs with
        | nil => exact absurd rfl hne
        | cons p l =>
            obtain ⟨k, v⟩ := p
            rw [pmFuel] at hf
            omega
      · cases xs with
        | nil => exact absurd rfl hne
        | cons x l =>
            rw [peFuel] at hf
            omega
  | succ f ih =>
      obtain ⟨ihv, ihm, ihe⟩ := ih
      refine ⟨?_, ?_, ?_⟩
      · -- parseValue on render v ++ rest
        intro v rest hp hstop hfuel
        cases v with
        | jnull =>
            have he : render JValue.jnull ++ rest = 'n' :: (['u', 'l', 'l'] ++ rest) := rfl
            rw [he, parseValue]
            simp [show ('n' : Char) ≠ dqC by decide, show ('n' : Char) ≠ obC by decide,
              stripPre]
        | jbool b =>
            cases b
            · have he : render (JValue.jbool false) ++ rest =
                  'f' :: (['a', 'l', 's', 'e'] ++ rest) := rfl
              rw [he, parseValue]
              simp [show ('f' : Char) ≠ dqC by decide, show ('f' : Char) ≠ obC by decide,
                stripPre]
            · have he : render (JValue.jbool true) ++ rest =
                  't' :: (['r', 'u', 'e'] ++ rest) := rfl
              rw [he, parseValue]
              simp [show ('t' : Char) ≠ dqC by decide, show ('t' : Char) ≠ obC by decide,
                stripPre]
        | jnum lex =>
            have hlx : isIntLex lex = true := by simpa [plainV] using hp
            obtain ⟨c, cs, hld, hws, hcase⟩ := intLex_head hlx
            have he : render (JValue.jnum lex) ++ rest = c :: (cs ++ rest) := by
              rw [render, hld, List.cons_append]
            have hnum : numScan (c :: (cs ++ rest)) = some (lex.data, rest) := by
              rw [← List.cons_append, ← hld]
              exact numScan_intLex hlx hstop
            rcases hcase with hm | hd
            · subst hm
              rw [he, parseValue]
              rw [if_neg (by decide), if_neg (by decide), if_neg (by decide),
                if_neg (by decide), if_neg (by decide), if_neg (by decide),
                if_neg (by decide), if_neg (by decide),
                if_pos (by simp), hnum]
            · rw [he, parseValue]
              rw [if_neg (digit_ne hd (by decide)), if_neg (digit_ne hd (by decide)),
                if_neg (digit_ne hd (by decide)), if_neg (digit_ne hd (by decide)),
                if_neg (digit_ne hd (by decide)), if_neg (digit_ne hd (by decide)),
                if_neg (digit_ne hd (by decide)), if_neg (digit_ne hd (by decide)),
                if_pos (by simp [hd]), hnum]
        | jstr s =>
            have hall : ∀ c ∈ s.data, plainChar c = true := by
              rw [plainV] at hp
              exact List.all_eq_true.mp hp
            have he : render (JValue.jstr s) ++ rest = dqC :: (s.data ++ dqC :: rest) := by
              rw [render]
              simp
            rw [he, parseValue, if_pos rfl, strScan_plain s.data [] rest hall]
            simp
        | jarr xs =>
            have hpe : plainElems xs = true := by simpa [plainV] using hp
            have he : render (JValue.jarr xs) ++ rest =
                '[' :: (renderElems xs ++ ']' :: rest) := by
              rw [render]
              simp
            rw [he, parseValue, if_neg (by decide), if_neg (by decide), if_pos rfl]
            cases xs with
            | nil =>
                rw [show renderElems [] = [] from rfl, List.nil_append,
                  skipWs_cons_not (by decide)]
                simp
            | cons x xs2 =>
                obtain ⟨hpx, hpxs⟩ := plainElems_cons hpe
                obtain ⟨u, hu, -⟩ := elems_cons_split x xs2
                obtain ⟨c, t, hct, hws, hbr, -, -⟩ := render_head_forms hpx
                have hform : renderElems (x :: xs2) ++ ']' :: rest =
                    c :: (t ++ (u ++ ']' :: rest)) := by
                  rw [hu, hct]
                  simp
                rw [hform, skipWs_cons_not hws]
                dsimp only
                rw [if_neg hbr, ← hform]
                rw [ihe (x :: xs2) rest [] hpe (by simp) (by
                  rw [pvFuel] at hfuel
                  omega)]
                simp
        | jobj kvs =>
            rw [plainV, Bool.and_eq_true] at hp
            obtain ⟨hpm, hkd⟩ := hp
            have he : render (JValue.jobj kvs) ++ rest =
                obC :: (renderMembers kvs ++ cbC :: rest) := by
              rw [render]
              simp
            rw [he, parseValue, if_neg (by decide), if_pos rfl]
            cases kvs with
            | nil =>
                rw [show renderMembers [] = [] from rfl, List.nil_append,
                  skipWs_cons_not (by decide)]
                simp
            | cons p kvs2 =>
                obtain ⟨t, ht⟩ := members_head p kvs2
                have hform : renderMembers (p :: kvs2) ++ cbC :: rest =
                    dqC :: (t ++ cbC :: rest) := by
                  rw [ht]
                  simp
                rw [hform, skipWs_cons_not (by decide)]
                dsimp only
                rw [if_neg (by decide), ← hform]
                rw [ihm (p :: kvs2) rest [] hpm hkd (by simp) (by simp) (by
                  rw [pvFuel] at hfuel
                  omega)]
                simp
      · -- parseMembers on renderMembers kvs ++ cbC :: rest
        intro kvs rest acc hpm hkd hne hfresh hfuel
        cases kvs with
        | nil => exact absurd rfl hne
        | cons p kvs2 =>
            obtain ⟨k, v⟩ := p
            obtain ⟨hkplain, hpv, hpm2⟩ := plainMembers_cons hpm
            obtain ⟨hkfresh, hkd2⟩ := keysDistinct_cons hkd
            have hinsert : objInsert acc k v = acc ++ [(k, v)] :=
              objInsert_fresh acc k v
                (fun q hq => hfresh (k, v) (by simp) q hq)
            rw [pmFuel] at hfuel
            cases kvs2 with
            | nil =>
                have hform : renderMembers [(k, v)] ++ cbC :: rest =
                    dqC :: (k.data ++ dqC :: ':' :: (render v ++ cbC :: rest)) := by
                  rw [renderMembers]
                  simp
                rw [hform, parseMembers, if_pos rfl,
                  strScan_plain k.data [] _ hkplain]
                dsimp only
                rw [skipWs_cons_not (by decide)]
                dsimp only
                rw [if_pos rfl]
                rw [skipWs_render hpv]
                rw [ihv v (cbC :: rest) hpv (by intro c hc; cases hc; decide)
                  (by omega)]
                dsimp only
                rw [skipWs_cons_not (by decide)]
                dsimp only
                rw [if_pos rfl]
                simp only [List.reverse_nil, List.nil_append]
                rw [show String.mk k.data = k from rfl, hinsert]
            | cons m kvs3 =>
                have hform : renderMembers ((k, v) :: m :: kvs3) ++ cbC :: rest =
                    dqC :: (k.data ++ dqC :: ':' ::
                      (render v ++ ',' :: (renderMembers (m :: kvs3) ++ cbC :: rest))) := by
                  rw [renderMembers]
                  simp
                rw [hform, parseMembers, if_pos rfl,
                  strScan_plain k.data [] _ hkplain]
                dsimp only
                rw [skipWs_cons_not (by decide)]
                dsimp only
                rw [if_pos rfl]
                rw [skipWs_render hpv]
                rw [ihv v (',' :: (renderMembers (m :: kvs3) ++ cbC :: rest)) hpv
                  (by intro c hc; cases hc; decide) (by omega)]
                dsimp only
                rw [skipWs_cons_not (by decide)]
                dsimp only
                rw [if_neg (by decide), if_pos rfl]
                obtain ⟨t2, ht2⟩ := members_head m kvs3
                have hform2 : renderMembers (m :: kvs3) ++ cbC :: rest =
                    dqC :: (t2 ++ cbC :: rest) := by
                  rw [ht2]
                  simp
                rw [hform2, skipWs_cons_not (by decide), ← hform2]
                simp only [List.reverse_nil, List.nil_append]
                rw [show String.mk k.data = k from rfl, hinsert]
                rw [ihm (m :: kvs3) rest (acc ++ [(k, v)]) hpm2 hkd2 (by simp)
                  (by
                    intro p2 hp2 q hq
                    rcases List.mem_append.mp hq with hq1 | hq1
                    · exact hfresh p2 (by simp [hp2]) q hq1
                    · have : q = (k, v) := by simpa using hq1
                      rw [this]
                      exact fun he => hkfresh p2 hp2 he.symm)
                  (by omega)]
                simp
      · -- parseElems on renderElems xs ++ ']' :: rest
        intro xs rest acc hpe hne hfuel
        cases xs with
        | nil => exact absurd rfl hne
        | cons x xs2 =>
            obtain ⟨hpx, hpxs⟩ := plainElems_cons hpe
            rw [peFuel] at hfuel
            cases xs2 with
            | nil =>
                have hform : renderElems [x] ++ ']' :: rest =
                    render x ++ ']' :: rest := by
                  rw [renderElems]
                rw [hform, parseElems]
                rw [ihv x (']' :: rest) hpx (by intro c hc; cases hc; decide)
                  (by omega)]
                dsimp only
                rw [skipWs_cons_not (by decide)]
                dsimp only
                simp
            | cons y ys =>
                have hform : renderElems (x :: y :: ys) ++ ']' :: rest =
                    render x ++ ',' :: (renderElems (y :: ys) ++ ']' :: rest) := by
                  rw [renderElems]
                  simp
                rw [hform, parseElems]
                rw [ihv x (',' :: (renderElems (y :: ys) ++ ']' :: rest)) hpx
                  (by intro c hc; cases hc; decide) (by omega)]
                dsimp only
                rw [skipWs_cons_not (by decide)]
                dsimp only
                rw [if_neg (by decide), if_pos rfl]
                obtain ⟨c, t, hct, hws, hbr, -, -⟩ := render_head_forms
                  (plainElems_cons hpxs).1
                obtain ⟨u, hu, -⟩ := elems_cons_split y ys
                have hform2 : renderElems (y :: ys) ++ ']' :: rest =
                    c :: (t ++ (u ++ ']' :: rest)) := by
                  rw [hu, hct]
                  simp
                rw [hform2, skipWs_cons_not hws, ← hform2]
                rw [ihe (y :: ys) rest (acc ++ [x]) hpxs (by simp) (by omega)]
                simp

mutual

theorem pvFuel_le_render : ∀ (v : JValue), plainV v = true →
    pvFuel v ≤ (render v).length
  | .jnull, _ => by simp [pvFuel, render]
  | .jbool b, _ => by cases b <;> simp [pvFuel, render]
  | .jnum lex, h => by
      obtain ⟨c, cs, hld, -, -⟩ := intLex_head (by simpa [plainV] using h)
      simp [pvFuel, render, hld]
  | .jstr s, _ => by simp [pvFuel, render]
  | .jarr xs, h => by
      have hb := peFuel_le xs (by simpa [plainV] using h)
      simp only [pvFuel, render, List.length_cons, List.length_append,
        List.length_singleton]
      omega
  | .jobj kvs, h => by
      have hp : plainMembers kvs = true := by
        rw [plainV, Bool.and_eq_true] at h
        exact h.1
      have hb := pmFuel_le kvs hp
      simp only [pvFuel, render, List.length_cons, List.length_append,
        List.length_singleton]
      omega

theorem peFuel_le : ∀ (xs : List JValue), plainElems xs = true →
    peFuel xs ≤ (renderElems xs).length + 1
  | [], _ => by simp [peFuel]
  | [x], h => by
      have hb := pvFuel_le_render x (plainElems_cons h).1
      have h0 : peFuel ([] : List JValue) = 0 := rfl
      rw [peFuel, renderElems, h0]
      omega
  | x :: y :: ys, h => by
      have h1 := pvFuel_le_render x (plainElems_cons h).1
      have h2 := peFuel_le (y :: ys) (plainElems_cons h).2
      rw [peFuel, renderElems]
      simp only [List.length_append, List.length_cons]
      omega

theorem pmFuel_le : ∀ (kvs : List (String × JValue)), plainMembers kvs = true →
    pmFuel kvs ≤ (renderMembers kvs).length + 1
  | [], _ => by simp [pmFuel]
  | [(k, v)], h => by
      have hb := pvFuel_le_render v (plainMembers_cons h).2.1
      have h0 : pmFuel ([] : List (String × JValue)) = 0 := rfl
      rw [pmFuel, renderMembers, h0]
      simp only [List.length_append, List.length_cons]
      omega
  | (k, v) :: m :: kvs, h => by
      have h1 := pvFuel_le_render v (plainMembers_cons h).2.1
      have h2 := pmFuel_le (m :: kvs) (plainMembers_cons h).2.2
      rw [pmFuel, renderMembers]
      simp only [List.length_append, List.length_cons]
      omega

end

/-- `json.loads` accepts the rendering of a plain value and returns exactly
that value. -/
theorem json_loads_render {v : JValue} (h : plainV v = true) :
    json_loads_l (render v) = some v := by
  have hsk : skipWs (render v) = render v := by
    have := skipWs_render h []
    simpa using this
  have hparse := (parse_render_bundle ((render v).length + 1)).1 v [] h
    (by simp) (by have := pvFuel_le_render v h; omega)
  rw [List.append_nil] at hparse
  show (let l1 := skipWs (render v);
    match parseValue (l1.length + 1) l1 with
    | some (v, rest) => if skipWs rest = [] then some v else none
    | none => none) = some v
  rw [hsk]
  simp only [hparse]
  rfl

/-! ### Splitting and stripping lemmas for the extractor claims -/

theorem exists_concat_of_getLast? {l : List Char} {c : Char}
    (h : l.getLast? = some c) : ∃ l1, l = l1 ++ [c] := by
  induction l with
  | nil => simp at h
  | cons x xs ih =>
      cases xs with
      | nil =>
          have hx : x = c := by simpa using h
          exact ⟨[], by simp [hx]⟩
      | cons y ys =>
          rw [List.getLast?_cons_cons] at h
          obtain ⟨l1, hl1⟩ := ih h
          exact ⟨x :: l1, by simp [hl1]⟩

theorem ne_nil_of_getLast? {l : List Char} {c : Char}
    (h : l.getLast? = some c) : l ≠ [] := by
  intro hn
  rw [hn] at h
  cases h

theorem split_middle : ∀ {A B X Y : List Char} {ch : Char},
    A ++ B = X ++ ch :: Y →
    (∃ Y1, A = X ++ ch :: Y1 ∧ Y = Y1 ++ B) ∨
      (∃ X1, X = A ++ X1 ∧ B = X1 ++ ch :: Y) := by
  intro A
  induction A with
  | nil =>
      intro B X Y ch h
      exact Or.inr ⟨X, (List.nil_append X).symm, by simpa using h⟩
  | cons a A1 ih =>
      intro B X Y ch h
      cases X with
      | nil =>
          rw [List.nil_append, List.cons_append] at h
          injection h with h1 h2
          exact Or.inl ⟨A1, by rw [List.nil_append, h1], h2.symm⟩
      | cons x X1 =>
          rw [List.cons_append, List.cons_append] at h
          injection h with h1 h2
          rcases ih h2 with ⟨Y1, hA, hY⟩ | ⟨X2, hX, hB⟩
          · exact Or.inl ⟨Y1, by rw [List.cons_append, h1, hA], hY⟩
          · exact Or.inr ⟨X2, by rw [List.cons_append, h1, hX], hB⟩

theorem mem_of_eq_split {l X Y : List Char} {c : Char}
    (h : l = X ++ c :: Y) : c ∈ l := by
  rw [h]
  exact List.mem_append_right X (List.mem_cons_self c Y)

theorem dropWhile_append_head {p : Char → Bool} {b : List Char}
    (hb : ∀ c, b.head? = some c → p c = false) :
    ∀ a : List Char, (a ++ b).dropWhile p = a.dropWhile p ++ b := by
  intro a
  induction a with
  | nil =>
      cases b with
      | nil => rfl
      | cons x xs =>
          simp only [List.nil_append, List.dropWhile_nil]
          rw [List.dropWhile_cons_of_neg (by simp [hb x rfl])]
  | cons c cs ih =>
      by_cases hc : p c
      · rw [List.cons_append, List.dropWhile_cons_of_pos hc,
          List.dropWhile_cons_of_pos hc, ih]
      · rw [List.cons_append, List.dropWhile_cons_of_neg hc,
          List.dropWhile_cons_of_neg hc, List.cons_append]

theorem dropWhile_ne_nil_of_last {p : Char → Bool} {l : List Char} {c : Char}
    (hlast : l.getLast? = some c) (hc : p c = false) : l.dropWhile p ≠ [] := by
  intro hnil
  rw [List.dropWhile_eq_nil_iff] at hnil
  obtain ⟨l1, rfl⟩ := exists_concat_of_getLast? hlast
  have hcp := hnil c (by simp)
  rw [hcp] at hc
  cases hc

theorem pyStripL_last {l : List Char} {c : Char}
    (hlast : l.getLast? = some c) (hc : isPyWs c = false) :
    pyStripL l = l.dropWhile isPyWs := by
  have hne := dropWhile_ne_nil_of_last hlast hc
  have hg : (l.dropWhile isPyWs).getLast? = some c := by
    rw [dropWhile_getLast? hne, hlast]
  have hh : (l.dropWhile isPyWs).reverse.head? = some c := by
    rw [List.head?_reverse, hg]
  unfold pyStripL
  cases hrev : (l.dropWhile isPyWs).reverse with
  | nil => rw [hrev] at hh; simp at hh
  | cons x xs =>
      have hx : x = c := by rw [hrev] at hh; simpa using hh
      have hnx : ¬ (isPyWs x = true) := by rw [hx]; simp [hc]
      rw [List.dropWhile_cons_of_neg hnx, ← hrev, List.reverse_reverse]

theorem stripPre_inv : ∀ {p l r : List Char}, stripPre p l = some r → l = p ++ r := by
  intro p
  induction p with
  | nil =>
      intro l r h
      simp only [stripPre, Option.some.injEq] at h
      rw [h, List.nil_append]
  | cons c cs ih =>
      intro l r h
      cases l with
      | nil => rw [stripPre] at h; cases h
      | cons x xs =>
          rw [stripPre] at h
          by_cases hx : x = c
          · rw [if_pos hx] at h
            rw [List.cons_append, hx, ih h]
          · rw [if_neg hx] at h
            cases h

theorem intCore_chars {l : List Char} (h : intCore l = true) :
    ∀ c ∈ l, c.isDigit = true := by
  cases l with
  | nil => intro c hc; cases hc
  | cons d ds =>
      rw [intCore] at h
      intro c hc
      by_cases hd : d = '0'
      · rw [if_pos hd] at h
        have hds : ds = [] := by simpa using h
        subst hds
        have hcd : c = d := by simpa using hc
        rw [hcd, hd]
        decide
      · rw [if_neg hd] at h
        simp only [Bool.and_eq_true, decide_eq_true_eq, List.all_eq_true] at h
        rcases List.mem_cons.mp hc with hcd | hcds
        · rw [hcd]
          exact range19_isDigit h.1.1 h.1.2
        · exact h.2 c hcds

theorem intLex_chars {lex : String} (h : isIntLex lex = true) :
    ∀ c ∈ lex.data, c = '-' ∨ c.isDigit = true := by
  intro c hc
  rw [isIntLex] at h
  cases hld : lex.data with
  | nil => rw [hld] at hc; cases hc
  | cons d ds =>
      rw [hld] at h hc
      dsimp only at h
      by_cases hd : d = '-'
      · rw [if_pos hd] at h
        rcases List.mem_cons.mp hc with hcd | hcds
        · exact Or.inl (hcd.trans hd)
        · exact Or.inr (intCore_chars h c hcds)
      · rw [if_neg hd] at h
        exact Or.inr (intCore_chars h c hc)

theorem plainChar_props {c : Char} (h : plainChar c = true) :
    c ≠ dqC ∧ c ≠ bslC ∧ c ≠ obC ∧ c ≠ cbC := by
  simp only [plainChar, Bool.and_eq_true, bne_iff_ne] at h
  exact ⟨h.1.1.1.1, h.1.1.1.2, h.1.1.2, h.1.2⟩

/-! ### Fence-search lemmas -/

theorem bt3Pre_not_bt {c : Char} {l : List Char} (hc : c ≠ btC) :
    bt3Pre (c :: l) = false := by
  cases l with
  | nil => rfl
  | cons b bs =>
      cases bs with
      | nil => rfl
      | cons d ds => simp [bt3Pre, hc]

theorem bt3Pre_cons_skip {c : Char} {l : List Char} (hbt : c ≠ btC)
    (hw : isPyWs c = false) : bt3Pre ((c :: l).dropWhile isPyWs) = false := by
  rw [List.dropWhile_cons_of_neg (by simp [hw])]
  exact bt3Pre_not_bt hbt

theorem noCB_all_not {a suf : List Char} (h : ∀ c ∈ a, c ≠ cbC) :
    noCB a suf = true := by
  induction a with
  | nil => rfl
  | cons c cs ih =>
      rw [noCB, if_neg (h c (by simp)), Bool.true_and]
      exact ih (fun x hx => h x (by simp [hx]))

theorem noCB_append {a b suf : List Char} (ha : noCB a (b ++ suf) = true)
    (hb : noCB b suf = true) : noCB (a ++ b) suf = true := by
  induction a with
  | nil => simpa using hb
  | cons c cs ih =>
      rw [noCB, Bool.and_eq_true] at ha
      rw [List.cons_append, noCB, List.append_assoc]
      simp only [Bool.and_eq_true]
      exact ⟨ha.1, ih ha.2⟩

mutual

theorem noCB_render : ∀ (v : JValue), plainV v = true → ∀ suf : List Char,
    bt3Pre (suf.dropWhile isPyWs) = false → noCB (render v) suf = true
  | .jnull, _ => by
      intro suf _
      exact noCB_all_not (by decide)
  | .jbool b, _ => by
      intro suf _
      cases b
      · exact noCB_all_not (by decide)
      · exact noCB_all_not (by decide)
  | .jnum lex, h => by
      intro suf _
      refine noCB_all_not (fun c hc => ?_)
      rw [render] at hc
      rcases intLex_chars (by simpa [plainV] using h) c hc with h1 | h1
      · rw [h1]; decide
      · exact digit_ne h1 (by decide)
  | .jstr s, h => by
      intro suf _
      refine noCB_all_not (fun c hc => ?_)
      rw [render] at hc
      rcases List.mem_cons.mp hc with h1 | h1
      · rw [h1]; decide
      · rcases List.mem_append.mp h1 with h2 | h2
        · exact (plainChar_props
            (List.all_eq_true.mp (by simpa [plainV] using h) c h2)).2.2.2
        · have : c = dqC := by simpa using h2
          rw [this]; decide
  | .jarr xs, h => by
      intro suf hsuf
      simp only [render, List.cons_append]
      rw [noCB, if_neg (by decide), Bool.true_and]
      exact noCB_append
        (noCB_renderElems xs (by simpa [plainV] using h) (']' :: suf)
          (bt3Pre_cons_skip (by decide) (by decide)))
        (noCB_all_not (by decide))
  | .jobj kvs, h => by
      intro suf hsuf
      simp only [render, List.cons_append]
      rw [noCB, if_neg (by decide), Bool.true_and]
      refine noCB_append
        (noCB_renderMembers kvs ?_ (cbC :: suf)
          (bt3Pre_cons_skip (by decide) (by decide))) ?_
      · rw [plainV, Bool.and_eq_true] at h
        exact h.1
      · simp [noCB, hsuf]

theorem noCB_renderElems : ∀ (xs : List JValue), plainElems xs = true →
    ∀ suf : List Char,
    bt3Pre (suf.dropWhile isPyWs) = false → noCB (renderElems xs) suf = true
  | [], _ => by intro suf _; rfl
  | [x], h => by
      intro suf hsuf
      rw [renderElems]
      exact noCB_render x (plainElems_cons h).1 suf hsuf
  | x :: y :: ys, h => by
      intro suf hsuf
      rw [renderElems]
      refine noCB_append
        (noCB_render x (plainElems_cons h).1 _
          (bt3Pre_cons_skip (by decide) (by decide))) ?_
      rw [noCB, if_neg (by decide), Bool.true_and]
      exact noCB_renderElems (y :: ys) (plainElems_cons h).2 suf hsuf

theorem noCB_renderMembers : ∀ (kvs : List (String × JValue)),
    plainMembers kvs = true → ∀ suf : List Char,
    bt3Pre (suf.dropWhile isPyWs) = false → noCB (renderMembers kvs) suf = true
  | [], _ => by intro suf _; rfl
  | [(k, v)], h => by
      intro suf hsuf
      simp only [renderMembers, List.cons_append]
      rw [noCB, if_neg (by decide), Bool.true_and]
      refine noCB_append
        (noCB_all_not (fun c hc => (plainChar_props
          ((plainMembers_cons h).1 c hc)).2.2.2)) ?_
      rw [noCB, if_neg (by decide), Bool.true_and]
      rw [noCB, if_neg (by decide), Bool.true_and]
      exact noCB_render v (plainMembers_cons h).2.1 suf hsuf
  | (k, v) :: m :: kvs, h => by
      intro suf hsuf
      simp only [renderMembers, List.cons_append, List.append_assoc]
      rw [noCB, if_neg (by decide), Bool.true_and]
      refine noCB_append
        (noCB_all_not (fun c hc => (plainChar_props
          ((plainMembers_cons h).1 c hc)).2.2.2)) ?_
      rw [noCB, if_neg (by decide), Bool.true_and]
      rw [noCB, if_neg (by decide), Bool.true_and]
      refine noCB_append
        (noCB_render v (plainMembers_cons h).2.1 _
          (bt3Pre_cons_skip (by decide) (by decide))) ?_
      rw [noCB, if_neg (by decide), Bool.true_and]
      exact noCB_renderMembers (m :: kvs) (plainMembers_cons h).2.2 suf hsuf

end

theorem lazyClose_exact : ∀ (inner acc tail : List Char),
    noCB inner (cbC :: tail) = true → bt3Pre (tail.dropWhile isPyWs) = true →
    lazyClose (inner ++ cbC :: tail) acc = some (acc.reverse ++ inner ++ [cbC]) := by
  intro inner
  induction inner with
  | nil =>
      intro acc tail _ hbt
      rw [List.nil_append, lazyClose, if_pos rfl, if_pos hbt]
      simp
  | cons c cs ih =>
      intro acc tail hno hbt
      rw [noCB, Bool.and_eq_true] at hno
      rw [List.cons_append, lazyClose]
      by_cases hc : c = cbC
      · rw [if_pos hc]
        have hfalse : bt3Pre ((cs ++ cbC :: tail).dropWhile isPyWs) = false := by
          have h1 := hno.1
          rw [if_pos hc] at h1
          simpa using h1
        rw [if_neg (by simp [hfalse])]
        rw [ih (c :: acc) tail hno.2 hbt]
        simp
      · rw [if_neg hc]
        rw [ih (c :: acc) tail hno.2 hbt]
        simp

theorem tryFence_not_bt {c : Char} (hc : c ≠ btC) (l : List Char) :
    tryFence (c :: l) = none := by
  cases l with
  | nil => rfl
  | cons b bs =>
      cases bs with
      | nil => rfl
      | cons d ds =>
          rw [tryFence.eq_def]
          dsimp only
          rw [if_neg (by simp [hc])]

theorem fenceSearch_skip : ∀ (a b : List Char), (∀ c ∈ a, c ≠ btC) →
    fenceSearch (a ++ b) = fenceSearch b := by
  intro a
  induction a with
  | nil => intro b _; rw [List.nil_append]
  | cons c cs ih =>
      intro b h
      rw [List.cons_append, fenceSearch, tryFence_not_bt (h c (by simp))]
      exact ih b (fun x hx => h x (by simp [hx]))

/-! ### What a successful parse consumes: the last consumed character -/

theorem skipWs_split {X Z : List Char} (h : skipWs X = Z) :
    X = X.takeWhile isJsonWs ++ Z := by
  rw [← h, skipWs]
  exact (List.takeWhile_append_dropWhile (p := isJsonWs) (l := X)).symm

theorem parse_consumed : ∀ fuel : Nat,
    (∀ (l rest : List Char) (v : JValue),
      parseValue fuel l = some (v, rest) →
      ∃ pre c, l = pre ++ c :: rest ∧ goodEnd c = true) ∧
    (∀ (l rest : List Char) (acc kvs : List (String × JValue)),
      parseMembers fuel l acc = some (kvs, rest) →
      ∃ pre, l = pre ++ cbC :: rest) ∧
    (∀ (l rest : List Char) (acc xs : List JValue),
      parseElems fuel l acc = some (xs, rest) →
      ∃ pre, l = pre ++ ']' :: rest) := by
  intro fuel
  induction fuel with
  | zero =>
      refine ⟨?_, ?_, ?_⟩
      · intro l rest v h
        rw [parseValue] at h
        exact Option.noConfusion h
      · intro l rest acc kvs h
        rw [parseMembers] at h
        exact Option.noConfusion h
      · intro l rest acc xs h
        rw [parseElems] at h
        exact Option.noConfusion h
  | succ f ih =>
      obtain ⟨ihV, ihM, ihE⟩ := ih
      refine ⟨?_, ?_, ?_⟩
      · intro l rest v h
        cases l with
        | nil =>
            rw [parseValue] at h
            exact Option.noConfusion h
        | cons c r =>
            rw [parseValue] at h
            by_cases h1 : c = dqC
            · rw [if_pos h1] at h
              cases hs : strScan r [] with
              | none => rw [hs] at h; exact Option.noConfusion h
              | some pr =>
                  obtain ⟨s, r2⟩ := pr
                  rw [hs] at h
                  dsimp only at h
                  injection h with h'
                  injection h' with hv hr
                  obtain ⟨con, hcon, hlast⟩ :=
                    strScan_consumed r.length r le_rfl [] s r2 hs
                  obtain ⟨con1, hcon1⟩ := exists_concat_of_getLast? hlast
                  refine ⟨c :: con1, dqC, ?_, by decide⟩
                  rw [← hr]
                  conv_lhs => rw [hcon, hcon1]
                  simp [List.append_assoc]
            · rw [if_neg h1] at h
              by_cases h2 : c = obC
              · rw [if_pos h2] at h
                cases hsk : skipWs r with
                | nil => rw [hsk] at h; exact Option.noConfusion h
                | cons c1 r1 =>
                    rw [hsk] at h
                    dsimp only at h
                    by_cases h3 : c1 = cbC
                    · rw [if_pos h3] at h
                      injection h with h'
                      injection h' with hv hr
                      refine ⟨c :: r.takeWhile isJsonWs, cbC, ?_, by decide⟩
                      rw [← hr, ← h3]
                      conv_lhs => rw [skipWs_split hsk]
                      simp [List.append_assoc]
                    · rw [if_neg h3] at h
                      cases hm : parseMembers f (c1 :: r1) [] with
                      | none => rw [hm] at h; exact Option.noConfusion h
                      | some pr =>
                          obtain ⟨kvs, r4⟩ := pr
                          rw [hm] at h
                          dsimp only at h
                          injection h with h'
                          injection h' with hv hr
                          obtain ⟨preM, hM⟩ := ihM (c1 :: r1) r4 [] kvs hm
                          refine ⟨c :: (r.takeWhile isJsonWs ++ preM), cbC, ?_,
                            by decide⟩
                          rw [← hr]
                          conv_lhs => rw [skipWs_split hsk, hM]
                          simp [List.append_assoc]
              · by_cases h4 : c = '['
                · rw [if_neg h2, if_pos h4] at h
                  cases hsk : skipWs r with
                  | nil => rw [hsk] at h; exact Option.noConfusion h
                  | cons c1 r1 =>
                      rw [hsk] at h
                      dsimp only at h
                      by_cases h5 : c1 = ']'
                      · rw [if_pos h5] at h
                        injection h with h'
                        injection h' with hv hr
                        refine ⟨c :: r.takeWhile isJsonWs, ']', ?_, by decide⟩
                        rw [← hr, ← h5]
                        conv_lhs => rw [skipWs_split hsk]
                        simp [List.append_assoc]
                      · rw [if_neg h5] at h
                        cases he : parseElems f (c1 :: r1) [] with
                        | none => rw [he] at h; exact Option.noConfusion h
                        | some pr =>
                            obtain ⟨xs, r4⟩ := pr
                            rw [he] at h
                            dsimp only at h
                            injection h with h'
                            injection h' with hv hr
                            obtain ⟨preE, hE⟩ := ihE (c1 :: r1) r4 [] xs he
                            refine ⟨c :: (r.takeWhile isJsonWs ++ preE), ']', ?_,
                              by decide⟩
                            rw [← hr]
                            conv_lhs => rw [skipWs_split hsk, hE]
                            simp [List.append_assoc]
                · by_cases h5 : c = 'n'
                  · rw [if_neg h2, if_neg h4, if_pos h5] at h
                    cases hsp : stripPre ['u', 'l', 'l'] r with
                    | none => rw [hsp] at h; exact Option.noConfusion h
                    | some rest0 =>
                        rw [hsp] at h
                        dsimp only at h
                        injection h with h'
                        injection h' with hv hr
                        refine ⟨[c, 'u', 'l'], 'l', ?_, by decide⟩
                        rw [← hr]
                        conv_lhs => rw [stripPre_inv hsp]
                        simp
                  · by_cases h6 : c = 't'
                    · rw [if_neg h2, if_neg h4, if_neg h5, if_pos h6] at h
                      cases hsp : stripPre ['r', 'u', 'e'] r with
                      | none => rw [hsp] at h; exact Option.noConfusion h
                      | some rest0 =>
                          rw [hsp] at h
                          dsimp only at h
                          injection h with h'
                          injection h' with hv hr
                          refine ⟨[c, 'r', 'u'], 'e', ?_, by decide⟩
                          rw [← hr]
                          conv_lhs => rw [stripPre_inv hsp]
                          simp
                    · by_cases h7 : c = 'f'
                      · rw [if_neg h2, if_neg h4, if_neg h5, if_neg h6,
                          if_pos h7] at h
                        cases hsp : stripPre ['a', 'l', 's', 'e'] r with
                        | none => rw [hsp] at h; exact Option.noConfusion h
                        | some rest0 =>
                            rw [hsp] at h
                            dsimp only at h
                            injection h with h'
                            injection h' with hv hr
                            refine ⟨[c, 'a', 'l', 's'], 'e', ?_, by decide⟩
                            rw [← hr]
                            conv_lhs => rw [stripPre_inv hsp]
                            simp
                      · by_cases h8 : c = 'N'
                        · rw [if_neg h2, if_neg h4, if_neg h5, if_neg h6,
                            if_neg h7, if_pos h8] at h
                          cases hsp : stripPre ['a', 'N'] r with
                          | none => rw [hsp] at h; exact Option.noConfusion h
                          | some rest0 =>
                              rw [hsp] at h
                              dsimp only at h
                              injection h with h'
                              injection h' with hv hr
                              refine ⟨[c, 'a'], 'N', ?_, by decide⟩
                              rw [← hr]
                              conv_lhs => rw [stripPre_inv hsp]
                              simp
                        · by_cases h9 : c = 'I'
                          · rw [if_neg h2, if_neg h4, if_neg h5, if_neg h6,
                              if_neg h7, if_neg h8, if_pos h9] at h
                            cases hsp :
                                stripPre ['n', 'f', 'i', 'n', 'i', 't', 'y'] r with
                            | none => rw [hsp] at h; exact Option.noConfusion h
                            | some rest0 =>
                                rw [hsp] at h
                                dsimp only at h
                                injection h with h'
                                injection h' with hv hr
                                refine ⟨[c, 'n', 'f', 'i', 'n', 'i', 't'], 'y',
                                  ?_, by decide⟩
                                rw [← hr]
                                conv_lhs => rw [stripPre_inv hsp]
                                simp
                          · by_cases h10 : (c = '-' || c.isDigit) = true
                            · rw [if_neg h2, if_neg h4, if_neg h5, if_neg h6,
                                if_neg h7, if_neg h8, if_neg h9, if_pos h10] at h
                              cases hn : numScan (c :: r) with
                              | some pr =>
                                  obtain ⟨lex, r2⟩ := pr
                                  rw [hn] at h
                                  dsimp only at h
                                  injection h with h'
                                  injection h' with hv hr
                                  obtain ⟨hcons, cd, hlast, hdig⟩ :=
                                    numScan_consumed hn
                                  obtain ⟨lex1, hlex1⟩ :=
                                    exists_concat_of_getLast? hlast
                                  refine ⟨lex1, cd, ?_, by simp [goodEnd, hdig]⟩
                                  rw [← hr]
                                  conv_lhs => rw [hcons, hlex1]
                                  simp [List.append_assoc]
                              | none =>
                                  rw [hn] at h
                                  dsimp only at h
                                  by_cases hm : c = '-'
                                  · rw [if_pos hm] at h
                                    cases hsp : stripPre
                                        ['I', 'n', 'f', 'i', 'n', 'i', 't', 'y']
                                        r with
                                    | none =>
                                        rw [hsp] at h
                                        exact Option.noConfusion h
                                    | some rest0 =>
                                        rw [hsp] at h
                                        dsimp only at h
                                        injection h with h'
                                        injection h' with hv hr
                                        refine ⟨[c, 'I', 'n', 'f', 'i', 'n', 'i',
                                          't'], 'y', ?_, by decide⟩
                                        rw [← hr]
                                        conv_lhs => rw [stripPre_inv hsp]
                                        simp
                                  · rw [if_neg hm] at h
                                    exact Option.noConfusion h
                            · rw [if_neg h2, if_neg h4, if_neg h5, if_neg h6,
                                if_neg h7, if_neg h8, if_neg h9, if_neg h10] at h
                              exact Option.noConfusion h
      · intro l rest acc kvs h
        cases l with
        | nil =>
            rw [parseMembers] at h
            exact Option.noConfusion h
        | cons c r =>
            rw [parseMembers] at h
            by_cases h1 : c = dqC
            · rw [if_pos h1] at h
              cases hs : strScan r [] with
              | none => rw [hs] at h; exact Option.noConfusion h
              | some pr =>
                  obtain ⟨k, r2⟩ := pr
                  rw [hs] at h
                  dsimp only at h
                  cases hsk : skipWs r2 with
                  | nil => rw [hsk] at h; exact Option.noConfusion h
                  | cons c1 r3 =>
                      rw [hsk] at h
                      dsimp only at h
                      by_cases h2 : c1 = ':'
                      · rw [if_pos h2] at h
                        cases hpv : parseValue f (skipWs r3) with
                        | none => rw [hpv] at h; exact Option.noConfusion h
                        | some pr2 =>
                            obtain ⟨v, r4⟩ := pr2
                            rw [hpv] at h
                            dsimp only at h
                            cases hsk2 : skipWs r4 with
                            | nil => rw [hsk2] at h; exact Option.noConfusion h
                            | cons c2 r5 =>
                                rw [hsk2] at h
                                dsimp only at h
                                obtain ⟨conS, hconS, -⟩ :=
                                  strScan_consumed r.length r le_rfl [] k r2 hs
                                obtain ⟨preV, cV, hV, -⟩ :=
                                  ihV (skipWs r3) r4 v hpv
                                have er3 : r3 = r3.takeWhile isJsonWs ++ skipWs r3 :=
                                  skipWs_split rfl
                                by_cases h3 : c2 = cbC
                                · rw [if_pos h3] at h
                                  injection h with h'
                                  injection h' with hacc hrest
                                  refine ⟨c :: (conS ++
                                    (r2.takeWhile isJsonWs ++ ':' ::
                                      (r3.takeWhile isJsonWs ++
                                        (preV ++ cV :: r4.takeWhile isJsonWs)))),
                                    ?_⟩
                                  rw [← hrest, ← h3]
                                  conv_lhs => rw [hconS, skipWs_split hsk, h2,
                                    er3, hV, skipWs_split hsk2]
                                  simp [List.append_assoc]
                                · rw [if_neg h3] at h
                                  by_cases h4 : c2 = ','
                                  · rw [if_pos h4] at h
                                    obtain ⟨preM, hM⟩ := ihM (skipWs r5) rest _ kvs h
                                    refine ⟨c :: (conS ++
                                      (r2.takeWhile isJsonWs ++ ':' ::
                                        (r3.takeWhile isJsonWs ++
                                          (preV ++ cV ::
                                            (r4.takeWhile isJsonWs ++ ',' ::
                                              (r5.takeWhile isJsonWs ++ preM)))))),
                                      ?_⟩
                                    conv_lhs => rw [hconS, skipWs_split hsk, h2,
                                      er3, hV, skipWs_split hsk2, h4,
                                      skipWs_split (rfl :
                                        skipWs r5 = skipWs r5), hM]
                                    simp [List.append_assoc]
                                  · rw [if_neg h4] at h
                                    exact Option.noConfusion h
                      · rw [if_neg h2] at h
                        exact Option.noConfusion h
            · rw [if_neg h1] at h
              exact Option.noConfusion h
      · intro l rest acc xs h
        rw [parseElems] at h
        cases hpv : parseValue f l with
        | none => rw [hpv] at h; exact Option.noConfusion h
        | some pr =>
            obtain ⟨v, r1⟩ := pr
            rw [hpv] at h
            dsimp only at h
            obtain ⟨preV, cV, hV, -⟩ := ihV l r1 v hpv
            cases hsk : skipWs r1 with
            | nil => rw [hsk] at h; exact Option.noConfusion h
            | cons c2 r2 =>
                rw [hsk] at h
                dsimp only at h
                by_cases h2 : c2 = ']'
                · rw [if_pos h2] at h
                  injection h with h'
                  injection h' with hxs hrest
                  refine ⟨preV ++ cV :: r1.takeWhile isJsonWs, ?_⟩
                  rw [← hrest, ← h2]
                  conv_lhs => rw [hV, skipWs_split hsk]
                  simp [List.append_assoc]
                · rw [if_neg h2] at h
                  by_cases h3 : c2 = ','
                  · rw [if_pos h3] at h
                    obtain ⟨preE, hE⟩ := ihE (skipWs r2) rest _ xs h
                    refine ⟨preV ++ cV :: (r1.takeWhile isJsonWs ++ ',' ::
                      (r2.takeWhile isJsonWs ++ preE)), ?_⟩
                    conv_lhs => rw [hV, skipWs_split hsk, h3,
                      skipWs_split (rfl : skipWs r2 = skipWs r2), hE]
                    simp [List.append_assoc]
                  · rw [if_neg h3] at h
                    exact Option.noConfusion h

/-- `json.loads` rejects any text whose last character is not whitespace and
cannot end a JSON value. -/
theorem loads_bad_end {l : List Char} {c : Char} (hlast : l.getLast? = some c)
    (hws : isJsonWs c = false) (hge : goodEnd c = false) :
    json_loads_l l = none := by
  show (let l1 := skipWs l;
    match parseValue (l1.length + 1) l1 with
    | some (v, rest) => if skipWs rest = [] then some v else none
    | none => none) = none
  have hsuffix : l = l.takeWhile isJsonWs ++ skipWs l := skipWs_split rfl
  cases hpv : parseValue ((skipWs l).length + 1) (skipWs l) with
  | none => simp only [hpv]
  | some pr =>
      obtain ⟨v, rest⟩ := pr
      simp only [hpv]
      obtain ⟨pre, ce, hsplit, hge2⟩ :=
        (parse_consumed ((skipWs l).length + 1)).1 (skipWs l) rest v hpv
      have hlast2 : (skipWs l).getLast? = some c := by
        rw [← suffix_getLast? ⟨l.takeWhile isJsonWs, hsuffix.symm⟩ ?_]
        · exact hlast
        · rw [hsplit]
          simp
      by_cases hrestnil : rest = []
      · subst hrestnil
        rw [hsplit] at hlast2
        have hce : ce = c := by
          rw [List.getLast?_concat] at hlast2
          injection hlast2 with h1
        rw [hce, hge] at hge2
        exact Bool.noConfusion hge2
      · have hsuf2 : rest <:+ skipWs l := ⟨pre ++ [ce], by rw [hsplit]; simp⟩
        have hlastr : rest.getLast? = some c :=
          (suffix_getLast? hsuf2 hrestnil).symm.trans hlast2
        have hskne : skipWs rest ≠ [] :=
          dropWhile_ne_nil_of_last hlastr hws
        rw [if_neg hskne]

/-! ### Where a structural open brace can occur in rendered JSON -/

mutual

theorem obSplit_render : ∀ (v : JValue), plainV v = true →
    ∀ X Y : List Char, render v = X ++ obC :: Y →
    X = [] ∨ ∃ c, X.getLast? = some c ∧ openerB c = true
  | .jnull, _ => by
      intro X Y heq
      exact absurd (mem_of_eq_split heq) (by decide)
  | .jbool b, _ => by
      intro X Y heq
      cases b
      · exact absurd (mem_of_eq_split heq) (by decide)
      · exact absurd (mem_of_eq_split heq) (by decide)
  | .jnum lex, h => by
      intro X Y heq
      rw [render] at heq
      rcases intLex_chars (by simpa [plainV] using h) obC (mem_of_eq_split heq)
        with h1 | h1
      · exact absurd h1 (by decide)
      · exact absurd h1 (by decide)
  | .jstr s, h => by
      intro X Y heq
      rw [render] at heq
      rcases split_middle heq with ⟨Y1, hA, -⟩ | ⟨X1, -, hB⟩
      · have hm := mem_of_eq_split hA
        rcases List.mem_cons.mp hm with h1 | h1
        · exact absurd h1 (by decide)
        · exact absurd rfl (plainChar_props
            (List.all_eq_true.mp (by simpa [plainV] using h) obC h1)).2.2.1
      · exact absurd (mem_of_eq_split hB) (by decide)
  | .jarr xs, h => by
      intro X Y heq
      rw [render] at heq
      rcases split_middle heq with ⟨Y1, hA, -⟩ | ⟨X1, -, hB⟩
      · cases X with
        | nil =>
            rw [List.nil_append] at hA
            injection hA with h1 _
            exact absurd h1 (by decide)
        | cons x X1 =>
            rw [List.cons_append] at hA
            injection hA with h1 h2
            rcases obSplit_renderElems xs (by simpa [plainV] using h) X1 Y1 h2
              with hX1 | ⟨c, hc, hop⟩
            · subst hX1
              subst h1
              exact Or.inr ⟨'[', by simp, by decide⟩
            · refine Or.inr ⟨c, ?_, hop⟩
              rw [getLast?_cons_ne (ne_nil_of_getLast? hc)]
              exact hc
      · exact absurd (mem_of_eq_split hB) (by decide)
  | .jobj kvs, h => by
      intro X Y heq
      rw [render] at heq
      rcases split_middle heq with ⟨Y1, hA, -⟩ | ⟨X1, -, hB⟩
      · cases X with
        | nil => exact Or.inl rfl
        | cons x X1 =>
            rw [List.cons_append] at hA
            injection hA with h1 h2
            obtain ⟨c, hc, hop⟩ := obSplit_renderMembers kvs
              (by rw [plainV, Bool.and_eq_true] at h; exact h.1) X1 Y1 h2
            refine Or.inr ⟨c, ?_, hop⟩
            rw [getLast?_cons_ne (ne_nil_of_getLast? hc)]
            exact hc
      · exact absurd (mem_of_eq_split hB) (by decide)

theorem obSplit_renderElems : ∀ (xs : List JValue), plainElems xs = true →
    ∀ X Y : List Char, renderElems xs = X ++ obC :: Y →
    X = [] ∨ ∃ c, X.getLast? = some c ∧ openerB c = true
  | [], _ => by
      intro X Y heq
      rw [renderElems] at heq
      exact absurd heq.symm (by simp)
  | [x], h => by
      intro X Y heq
      rw [renderElems] at heq
      exact obSplit_render x (plainElems_cons h).1 X Y heq
  | x :: y :: ys, h => by
      intro X Y heq
      rw [renderElems] at heq
      rcases split_middle heq with ⟨Y1, hA, -⟩ | ⟨X1, hX, hB⟩
      · exact obSplit_render x (plainElems_cons h).1 X Y1 hA
      · cases X1 with
        | nil =>
            rw [List.nil_append] at hB
            injection hB with h1 _
            exact absurd h1 (by decide)
        | cons x1 X2 =>
            rw [List.cons_append] at hB
            injection hB with h1 h2
            subst h1
            rcases obSplit_renderElems (y :: ys) (plainElems_cons h).2 X2 Y h2
              with hX2 | ⟨c, hc, hop⟩
            · subst hX2
              refine Or.inr ⟨',', ?_, by decide⟩
              rw [hX, List.getLast?_concat]
            · refine Or.inr ⟨c, ?_, hop⟩
              rw [hX, List.getLast?_append_of_ne_nil _ (by simp),
                getLast?_cons_ne (ne_nil_of_getLast? hc)]
              exact hc

theorem obSplit_renderMembers : ∀ (kvs : List (String × JValue)),
    plainMembers kvs = true →
    ∀ X Y : List Char, renderMembers kvs = X ++ obC :: Y →
    ∃ c, X.getLast? = some c ∧ openerB c = true
  | [], _ => by
      intro X Y heq
      rw [renderMembers] at heq
      exact absurd heq.symm (by simp)
  | [(k, v)], h => by
      intro X Y heq
      rw [renderMembers] at heq
      rcases split_middle heq with ⟨Y1, hA, -⟩ | ⟨X1, hX, hB⟩
      · have hm := mem_of_eq_split hA
        rcases List.mem_cons.mp hm with h1 | h1
        · exact absurd h1 (by decide)
        · exact absurd rfl (plainChar_props ((plainMembers_cons h).1 obC h1)).2.2.1
      · cases X1 with
        | nil =>
            rw [List.nil_append] at hB
            injection hB with h1 _
            exact absurd h1 (by decide)
        | cons a X2 =>
            rw [List.cons_append] at hB
            injection hB with h1 h2
            subst h1
            cases X2 with
            | nil =>
                rw [List.nil_append] at h2
                injection h2 with h3 _
                exact absurd h3 (by decide)
            | cons b X3 =>
                rw [List.cons_append] at h2
                injection h2 with h3 h4
                subst h3
                rcases obSplit_render v (plainMembers_cons h).2.1 X3 Y h4
                  with hX3 | ⟨c, hc, hop⟩
                · subst hX3
                  refine ⟨':', ?_, by decide⟩
                  rw [hX, List.getLast?_append_of_ne_nil _ (by simp)]
                  decide
                · refine ⟨c, ?_, hop⟩
                  rw [hX, List.getLast?_append_of_ne_nil _ (by simp),
                    getLast?_cons_ne (by simp [ne_nil_of_getLast? hc]),
                    getLast?_cons_ne (ne_nil_of_getLast? hc)]
                  exact hc
  | (k, v) :: m :: kvs, h => by
      intro X Y heq
      rw [renderMembers, List.append_assoc] at heq
      rcases split_middle heq with ⟨Y1, hA, -⟩ | ⟨X1, hX, hB⟩
      · have hm := mem_of_eq_split hA
        rcases List.mem_cons.mp hm with h1 | h1
        · exact absurd h1 (by decide)
        · exact absurd rfl (plainChar_props ((plainMembers_cons h).1 obC h1)).2.2.1
      · rw [List.cons_append, List.cons_append] at hB
        cases X1 with
        | nil =>
            rw [List.nil_append] at hB
            injection hB with h1 _
            exact absurd h1 (by decide)
        | cons a X2 =>
            rw [List.cons_append] at hB
            injection hB with h1 h2
            subst h1
            cases X2 with
            | nil =>
                rw [List.nil_append] at h2
                injection h2 with h3 _
                exact absurd h3 (by decide)
            | cons b X3 =>
                rw [List.cons_append] at h2
                injection h2 with h3 h4
                subst h3
                rcases split_middle h4 with ⟨Y2, hR, -⟩ | ⟨X4, hX3b, hB2⟩
                · rcases obSplit_render v (plainMembers_cons h).2.1 X3 Y2 hR
                    with hX3 | ⟨c, hc, hop⟩
                  · subst hX3
                    refine ⟨':', ?_, by decide⟩
                    rw [hX, List.getLast?_append_of_ne_nil _ (by simp)]
                    decide
                  · refine ⟨c, ?_, hop⟩
                    rw [hX, List.getLast?_append_of_ne_nil _ (by simp),
                      getLast?_cons_ne (by simp [ne_nil_of_getLast? hc]),
                      getLast?_cons_ne (ne_nil_of_getLast? hc)]
                    exact hc
                · cases X4 with
                  | nil =>
                      rw [List.nil_append] at hB2
                      injection hB2 with h5 _
                      exact absurd h5 (by decide)
                  | cons d X5 =>
                      rw [List.cons_append] at hB2
                      injection hB2 with h5 h6
                      subst h5
                      obtain ⟨c, hc, hop⟩ := obSplit_renderMembers (m :: kvs)
                        (plainMembers_cons h).2.2 X5 Y h6
                      refine ⟨c, ?_, hop⟩
                      have h5ne : (X5 : List Char) ≠ [] := ne_nil_of_getLast? hc
                      rw [hX, hX3b, List.getLast?_append_of_ne_nil _ (by simp),
                        getLast?_cons_ne (by simp),
                        getLast?_cons_ne (by simp [h5ne]),
                        List.getLast?_append_of_ne_nil _ (by simp),
                        getLast?_cons_ne h5ne]
                      exact hc

end

/-! ### A successful fence search exhibits an open brace after backticks -/

theorem tryFence_some : ∀ {l g : List Char}, tryFence l = some g →
    ∃ jtag wsrun r3, l = [btC, btC, btC] ++ jtag ++ wsrun ++ obC :: r3 ∧
      (jtag = [] ∨ jtag = ['j', 's', 'o', 'n']) ∧
      ∀ c ∈ wsrun, isPyWs c = true := by
  intro l g h
  cases l with
  | nil => rw [tryFence.eq_def] at h; exact Option.noConfusion h
  | cons a l1 =>
      cases l1 with
      | nil => rw [tryFence.eq_def] at h; exact Option.noConfusion h
      | cons b l2 =>
          cases l2 with
          | nil => rw [tryFence.eq_def] at h; exact Option.noConfusion h
          | cons c r =>
              rw [tryFence.eq_def] at h
              dsimp only at h
              by_cases habc : (a = btC && b = btC && c = btC) = true
              · rw [if_pos habc] at h
                simp only [Bool.and_eq_true, decide_eq_true_eq] at habc
                obtain ⟨⟨ha, hb⟩, hc⟩ := habc
                subst ha
                subst hb
                subst hc
                split at h
                · next s r2 heq =>
                    by_cases hs : s = obC
                    · subst hs
                      split at heq
                      · next r4 r5 =>
                          have e2 : r5 = r5.takeWhile isPyWs ++ obC :: r2 := by
                            conv_lhs => rw [← List.takeWhile_append_dropWhile
                              (p := isPyWs) (l := r5)]
                            rw [heq]
                          refine ⟨['j', 's', 'o', 'n'], r5.takeWhile isPyWs, r2,
                            ?_, Or.inr rfl, fun x hx => List.mem_takeWhile_imp hx⟩
                          conv_lhs => rw [e2]
                          simp [List.append_assoc]
                      · next hno =>
                          have e2 : r = r.takeWhile isPyWs ++ obC :: r2 := by
                            conv_lhs => rw [← List.takeWhile_append_dropWhile
                              (p := isPyWs) (l := r)]
                            rw [heq]
                          refine ⟨[], r.takeWhile isPyWs, r2,
                            ?_, Or.inl rfl, fun x hx => List.mem_takeWhile_imp hx⟩
                          conv_lhs => rw [e2]
                          simp [List.append_assoc]
                    · rw [if_neg hs] at h
                      exact Option.noConfusion h
                · next heq0 =>
                    exact Option.noConfusion h
              · rw [if_neg habc] at h
                exact Option.noConfusion h

theorem fence_found : ∀ {t g : List Char}, fenceSearch t = some g →
    ∃ l1 jtag wsrun r3,
      t = l1 ++ ([btC, btC, btC] ++ jtag ++ wsrun ++ obC :: r3) ∧
      (jtag = [] ∨ jtag = ['j', 's', 'o', 'n']) ∧
      ∀ c ∈ wsrun, isPyWs c = true := by
  intro t
  induction t with
  | nil => intro g h; rw [fenceSearch] at h; exact Option.noConfusion h
  | cons c cs ih =>
      intro g h
      rw [fenceSearch] at h
      cases htf : tryFence (c :: cs) with
      | some g2 =>
          obtain ⟨jtag, wsrun, r3, heq, hj, hw⟩ := tryFence_some htf
          exact ⟨[], jtag, wsrun, r3, by rw [List.nil_append]; exact heq, hj, hw⟩
      | none =>
          rw [htf] at h
          dsimp only at h
          obtain ⟨l1, jtag, wsrun, r3, heq, hj, hw⟩ := ih h
          exact ⟨c :: l1, jtag, wsrun, r3, by rw [List.cons_append, ← heq], hj, hw⟩

/-! ### The brace-depth scan passes over rendered JSON -/

theorem scanBraces_chunk : ∀ (a : List Char),
    (∀ c ∈ a, c ≠ obC ∧ c ≠ cbC) →
    ∀ (rest : List Char) (d : Int) (acc : List Char),
    scanBraces (a ++ rest) d acc = scanBraces rest d (a.reverse ++ acc) := by
  intro a
  induction a with
  | nil => intro _ rest d acc; simp
  | cons c cs ih =>
      intro h rest d acc
      rw [List.cons_append, scanBraces, if_neg (h c (by simp)).1,
        if_neg (h c (by simp)).2]
      rw [ih (fun x hx => h x (by simp [hx])) rest d (c :: acc)]
      simp [List.append_assoc]

theorem fromFirstBrace_skip : ∀ (a : List Char), (∀ c ∈ a, c ≠ obC) →
    ∀ r : List Char, fromFirstBrace (a ++ obC :: r) = some (obC :: r) := by
  intro a
  induction a with
  | nil => intro _ r; rw [List.nil_append, fromFirstBrace, if_pos rfl]
  | cons c cs ih =>
      intro h r
      rw [List.cons_append, fromFirstBrace, if_neg (h c (by simp))]
      exact ih (fun x hx => h x (by simp [hx])) r

mutual

theorem scanB_render : ∀ (v : JValue), plainV v = true →
    ∀ (d : Int), 1 ≤ d → ∀ (rest acc : List Char),
    scanBraces (render v ++ rest) d acc =
      scanBraces rest d ((render v).reverse ++ acc)
  | .jnull, _ => by
      intro d hd rest acc
      exact scanBraces_chunk _ (by decide) rest d acc
  | .jbool b, _ => by
      intro d hd rest acc
      cases b
      · exact scanBraces_chunk _ (by decide) rest d acc
      · exact scanBraces_chunk _ (by decide) rest d acc
  | .jnum lex, h => by
      intro d hd rest acc
      refine scanBraces_chunk _ (fun c hc => ?_) rest d acc
      rw [render] at hc
      rcases intLex_chars (by simpa [plainV] using h) c hc with h1 | h1
      · subst h1
        exact ⟨by decide, by decide⟩
      · exact ⟨digit_ne h1 (by decide), digit_ne h1 (by decide)⟩
  | .jstr s, h => by
      intro d hd rest acc
      refine scanBraces_chunk _ (fun c hc => ?_) rest d acc
      rw [render] at hc
      rcases List.mem_cons.mp hc with h1 | h1
      · subst h1
        exact ⟨by decide, by decide⟩
      · rcases List.mem_append.mp h1 with h2 | h2
        · have hp := plainChar_props
            (List.all_eq_true.mp (by simpa [plainV] using h) c h2)
          exact ⟨hp.2.2.1, hp.2.2.2⟩
        · have h3 : c = dqC := by simpa using h2
          subst h3
          exact ⟨by decide, by decide⟩
  | .jarr xs, h => by
      intro d hd rest acc
      simp only [render, List.cons_append, List.append_assoc,
        List.singleton_append, List.nil_append]
      rw [scanBraces, if_neg (by decide), if_neg (by decide)]
      rw [scanB_renderElems xs (by simpa [plainV] using h) d hd
        (']' :: rest) ('[' :: acc)]
      rw [scanBraces, if_neg (by decide), if_neg (by decide)]
      simp [List.append_assoc]
  | .jobj kvs, h => by
      intro d hd rest acc
      simp only [render, List.cons_append, List.append_assoc,
        List.singleton_append, List.nil_append]
      rw [scanBraces, if_pos rfl]
      rw [scanB_renderMembers kvs
        (by rw [plainV, Bool.and_eq_true] at h; exact h.1) (d + 1)
        (by omega) (cbC :: rest) (obC :: acc)]
      rw [scanBraces, if_neg (by decide), if_pos rfl,
        if_neg (by omega : ¬(d + 1 - 1 = 0))]
      rw [(by omega : d + 1 - 1 = d)]
      simp [List.append_assoc]

theorem scanB_renderElems : ∀ (xs : List JValue), plainElems xs = true →
    ∀ (d : Int), 1 ≤ d → ∀ (rest acc : List Char),
    scanBraces (renderElems xs ++ rest) d acc =
      scanBraces rest d ((renderElems xs).reverse ++ acc)
  | [], _ => by
      intro d hd rest acc
      simp [renderElems]
  | [x], h => by
      intro d hd rest acc
      rw [renderElems]
      exact scanB_render x (plainElems_cons h).1 d hd rest acc
  | x :: y :: ys, h => by
      intro d hd rest acc
      rw [renderElems]
      simp only [List.cons_append, List.append_assoc]
      rw [scanB_render x (plainElems_cons h).1 d hd _ acc]
      rw [scanBraces, if_neg (by decide), if_neg (by decide)]
      rw [scanB_renderElems (y :: ys) (plainElems_cons h).2 d hd rest _]
      simp [List.append_assoc]

theorem scanB_renderMembers : ∀ (kvs : List (String × JValue)),
    plainMembers kvs = true →
    ∀ (d : Int), 1 ≤ d → ∀ (rest acc : List Char),
    scanBraces (renderMembers kvs ++ rest) d acc =
      scanBraces rest d ((renderMembers kvs).reverse ++ acc)
  | [], _ => by
      intro d hd rest acc
      simp [renderMembers]
  | [(k, v)], h => by
      intro d hd rest acc
      rw [renderMembers]
      simp only [List.cons_append, List.append_assoc]
      rw [scanBraces, if_neg (by decide), if_neg (by decide)]
      rw [scanBraces_chunk k.data
        (fun c hc => by
          have hp := plainChar_props ((plainMembers_cons h).1 c hc)
          exact ⟨hp.2.2.1, hp.2.2.2⟩) _ d _]
      rw [scanBraces, if_neg (by decide), if_neg (by decide)]
      rw [scanBraces, if_neg (by decide), if_neg (by decide)]
      rw [scanB_render v (plainMembers_cons h).2.1 d hd rest _]
      simp [List.append_assoc]
  | (k, v) :: m :: kvs, h => by
      intro d hd rest acc
      rw [renderMembers]
      simp only [List.cons_append, List.append_assoc]
      rw [scanBraces, if_neg (by decide), if_neg (by decide)]
      rw [scanBraces_chunk k.data
        (fun c hc => by
          have hp := plainChar_props ((plainMembers_cons h).1 c hc)
          exact ⟨hp.2.2.1, hp.2.2.2⟩) _ d _]
      rw [scanBraces, if_neg (by decide), if_neg (by decide)]
      rw [scanBraces, if_neg (by decide), if_neg (by decide)]
      rw [scanB_render v (plainMembers_cons h).2.1 d hd _ _]
      rw [scanBraces, if_neg (by decide), if_neg (by decide)]
      rw [scanB_renderMembers (m :: kvs) (plainMembers_cons h).2.2 d hd rest _]
      simp [List.append_assoc]

end

/-- The brace scan started at the opening brace of a rendered object stops
exactly at its matching closing brace. -/
theorem scanBraces_obj {kvs : List (String × JValue)}
    (h : plainV (JValue.jobj kvs) = true) (tail : List Char) :
    scanBraces (render (JValue.jobj kvs) ++ tail) 0 [] =
      some (render (JValue.jobj kvs)) := by
  have hm : plainMembers kvs = true := by
    rw [plainV, Bool.and_eq_true] at h
    exact h.1
  simp only [render, List.cons_append, List.append_assoc,
    List.singleton_append, List.nil_append]
  rw [scanBraces, if_pos rfl]
  rw [scanB_renderMembers kvs hm (0 + 1) (by omega) (cbC :: tail) (obC :: [])]
  rw [scanBraces, if_neg (by decide), if_pos rfl,
    if_pos (by omega : (0 : Int) + 1 - 1 = 0)]
  simp [List.append_assoc]

/-! ### Claim C7: brace-scan extraction from prose-wrapped JSON -/

theorem fenceSearch_sure {kvs : List (String × JValue)}
    (h : plainV (JValue.jobj kvs) = true) :
    fenceSearch ("Sure! ".data ++
      (render (JValue.jobj kvs) ++ " Thanks.".data)) = none := by
  cases hfs : fenceSearch ("Sure! ".data ++
      (render (JValue.jobj kvs) ++ " Thanks.".data)) with
  | none => rfl
  | some g =>
      exfalso
      obtain ⟨l1, jtag, wsrun, r3, heq, hj, hw⟩ := fence_found hfs
      have heq2 : "Sure! ".data ++
          (render (JValue.jobj kvs) ++ " Thanks.".data) =
          (l1 ++ [btC, btC, btC] ++ jtag ++ wsrun) ++ obC :: r3 := by
        rw [heq]
        simp [List.append_assoc]
      rcases split_middle heq2 with ⟨Y1, hA, -⟩ | ⟨X1, hX, hB⟩
      · exact absurd (mem_of_eq_split hA) (by decide)
      · rcases split_middle hB with ⟨Y2, hR, -⟩ | ⟨X2, hX1b, hP⟩
        · rcases obSplit_render (JValue.jobj kvs) h X1 Y2 hR
            with hX1nil | ⟨c, hc, hop⟩
          · subst hX1nil
            rw [List.append_nil] at hX
            have hbt : btC ∈ ("Sure! ".data : List Char) := by
              rw [← hX]
              simp
            exact absurd hbt (by decide)
          · have hXlast : ("Sure! ".data ++ X1).getLast? = some c := by
              rw [List.getLast?_append_of_ne_nil _ (ne_nil_of_getLast? hc)]
              exact hc
            rw [← hX] at hXlast
            simp only [openerB, Bool.or_eq_true, decide_eq_true_eq] at hop
            cases hwr : wsrun with
            | cons w ws =>
                rw [hwr] at hXlast hw
                rw [List.getLast?_append_of_ne_nil _ (by simp)] at hXlast
                obtain ⟨u, hu⟩ := exists_concat_of_getLast? hXlast
                have hcmem : c ∈ w :: ws := by rw [hu]; simp
                have hpw := hw c hcmem
                rcases hop with (h1 | h1) | h1 <;> subst h1 <;>
                  exact absurd hpw (by decide)
            | nil =>
                rw [hwr, List.append_nil] at hXlast
                rcases hj with hj0 | hj1
                · rw [hj0, List.append_nil] at hXlast
                  rw [List.getLast?_append_of_ne_nil _ (by simp)] at hXlast
                  rw [show (([btC, btC, btC] : List Char).getLast?) =
                    some btC from rfl] at hXlast
                  injection hXlast with h2
                  rcases hop with (h1 | h1) | h1 <;> rw [← h2] at h1 <;>
                    exact absurd h1 (by decide)
                · rw [hj1] at hXlast
                  rw [List.getLast?_append_of_ne_nil _ (by simp)] at hXlast
                  rw [show ((['j', 's', 'o', 'n'] : List Char).getLast?) =
                    some 'n' from rfl] at hXlast
                  injection hXlast with h2
                  rcases hop with (h1 | h1) | h1 <;> rw [← h2] at h1 <;>
                    exact absurd h1 (by decide)
        · exact absurd (mem_of_eq_split hP) (by decide)

/-- C7: for every input `'Sure! ' ++ J ++ ' Thanks.'` where `J` is the text
of a valid JSON object whose string values contain no brace characters,
`extract_json` returns the mapping parsed from `J`, ignoring the surrounding
prose, by brace-depth counting from the first opening brace to its matching
closing brace. -/
theorem claim_C7_brace_scan : ∀ (kvs : List (String × JValue)),
    plainV (JValue.jobj kvs) = true →
    extract_json (String.mk ("Sure! ".data ++
      (render (JValue.jobj kvs) ++ " Thanks.".data))) = JValue.jobj kvs := by
  intro kvs h
  have hlast : ("Sure! ".data ++
      (render (JValue.jobj kvs) ++ " Thanks.".data)).getLast? = some '.' := by
    rw [suffix_getLast? (s := " Thanks.".data)
      ⟨"Sure! ".data ++ render (JValue.jobj kvs), by rw [List.append_assoc]⟩
      (by decide)]
    decide
  have hstrip : pyStripL ("Sure! ".data ++
      (render (JValue.jobj kvs) ++ " Thanks.".data)) =
      "Sure! ".data ++ (render (JValue.jobj kvs) ++ " Thanks.".data) := by
    rw [pyStripL_last hlast (by decide)]
    rw [show ("Sure! ".data ++
      (render (JValue.jobj kvs) ++ " Thanks.".data)) =
      'S' :: ("ure! ".data ++
        (render (JValue.jobj kvs) ++ " Thanks.".data)) from rfl]
    rw [List.dropWhile_cons_of_neg (by decide)]
  have hloads : json_loads_l ("Sure! ".data ++
      (render (JValue.jobj kvs) ++ " Thanks.".data)) = none :=
    loads_bad_end hlast (by decide) (by decide)
  have hfence := fenceSearch_sure h
  have hform : "Sure! ".data ++
      (render (JValue.jobj kvs) ++ " Thanks.".data) =
      "Sure! ".data ++ obC ::
        ((renderMembers kvs ++ [cbC]) ++ " Thanks.".data) := by
    simp [render, List.append_assoc]
  have hbrace : fromFirstBrace ("Sure! ".data ++
      (render (JValue.jobj kvs) ++ " Thanks.".data)) =
      some (obC :: ((renderMembers kvs ++ [cbC]) ++ " Thanks.".data)) := by
    rw [hform]
    exact fromFirstBrace_skip "Sure! ".data (by decide) _
  have hscan : scanBraces
      (obC :: ((renderMembers kvs ++ [cbC]) ++ " Thanks.".data)) 0 [] =
      some (render (JValue.jobj kvs)) := by
    rw [show (obC :: ((renderMembers kvs ++ [cbC]) ++ " Thanks.".data) :
        List Char) = render (JValue.jobj kvs) ++ " Thanks.".data from by
      simp [render, List.append_assoc]]
    exact scanBraces_obj h _
  simp only [extract_json, hstrip, hloads, hfence, hbrace, hscan,
    json_loads_render h]

theorem claim_C7_brace_scan_witness :
    extract_json (String.mk ("Sure! ".data ++
      (render (JValue.jobj [("tags", JValue.jarr
        [JValue.jstr "a", JValue.jstr "b", JValue.jstr "c"])]) ++
        " Thanks.".data))) =
      JValue.jobj [("tags", JValue.jarr
        [JValue.jstr "a", JValue.jstr "b", JValue.jstr "c"])] :=
  claim_C7_brace_scan
    [("tags", JValue.jarr [JValue.jstr "a", JValue.jstr "b", JValue.jstr "c"])]
    (by decide)

/-! ### Claim C8: fenced-code-block extraction -/

theorem tryFence_block_tagged {kvs : List (String × JValue)}
    (h : plainV (JValue.jobj kvs) = true) :
    tryFence (btC :: btC :: btC :: 'j' :: 's' :: 'o' :: 'n' :: '\n' ::
      (render (JValue.jobj kvs) ++ '\n' :: [btC, btC, btC])) =
      some (render (JValue.jobj kvs)) := by
  have hm : plainMembers kvs = true := by
    rw [plainV, Bool.and_eq_true] at h
    exact h.1
  show lazyClose ((renderMembers kvs ++ [cbC]) ++ '\n' :: [btC, btC, btC])
      [obC] = some (render (JValue.jobj kvs))
  rw [List.append_assoc, List.singleton_append]
  rw [lazyClose_exact (renderMembers kvs) [obC] ('\n' :: [btC, btC, btC])
    (noCB_renderMembers kvs hm _ (bt3Pre_cons_skip (by decide) (by decide)))
    (by decide)]
  simp [render]

theorem tryFence_block_plain {kvs : List (String × JValue)}
    (h : plainV (JValue.jobj kvs) = true) :
    tryFence (btC :: btC :: btC :: '\n' ::
      (render (JValue.jobj kvs) ++ '\n' :: [btC, btC, btC])) =
      some (render (JValue.jobj kvs)) := by
  have hm : plainMembers kvs = true := by
    rw [plainV, Bool.and_eq_true] at h
    exact h.1
  show lazyClose ((renderMembers kvs ++ [cbC]) ++ '\n' :: [btC, btC, btC])
      [obC] = some (render (JValue.jobj kvs))
  rw [List.append_assoc, List.singleton_append]
  rw [lazyClose_exact (renderMembers kvs) [obC] ('\n' :: [btC, btC, btC])
    (noCB_renderMembers kvs hm _ (bt3Pre_cons_skip (by decide) (by decide)))
    (by decide)]
  simp [render]

theorem fenceSearch_block {kvs : List (String × JValue)} (tagged : Bool)
    (h : plainV (JValue.jobj kvs) = true) :
    fenceSearch (fenceBlock tagged (render (JValue.jobj kvs))) =
      some (render (JValue.jobj kvs)) := by
  cases tagged
  · rw [show fenceBlock false (render (JValue.jobj kvs)) =
      btC :: btC :: btC :: '\n' ::
        (render (JValue.jobj kvs) ++ '\n' :: [btC, btC, btC]) from by
      simp [fenceBlock]]
    rw [fenceSearch, tryFence_block_plain h]
  · rw [show fenceBlock true (render (JValue.jobj kvs)) =
      btC :: btC :: btC :: 'j' :: 's' :: 'o' :: 'n' :: '\n' ::
        (render (JValue.jobj kvs) ++ '\n' :: [btC, btC, btC]) from by
      simp [fenceBlock]]
    rw [fenceSearch, tryFence_block_tagged h]

theorem fenceBlock_getLast {body post : List Char} (tagged : Bool) :
    (post ++ fenceBlock tagged body).getLast? = some btC := by
  rw [suffix_getLast? (s := [btC, btC, btC])
    ⟨post ++ ([btC, btC, btC] ++
        ((if tagged then ['j', 's', 'o', 'n'] else []) ++
          ('\n' :: (body ++ ['\n'])))), by
      simp [fenceBlock, List.append_assoc]⟩ (by decide)]
  decide

/-- C8: for every input consisting of backtick-free leading prose followed
by a fenced code block (triple backticks, optionally tagged `json`) wrapping
the text of a valid JSON object, `extract_json` returns exactly that object,
ignoring the prose. -/
theorem claim_C8_fenced_block : ∀ (kvs : List (String × JValue))
    (prose : List Char) (tagged : Bool),
    plainV (JValue.jobj kvs) = true →
    (∀ c ∈ prose, c ≠ btC) →
    extract_json (String.mk
      (prose ++ fenceBlock tagged (render (JValue.jobj kvs)))) =
      JValue.jobj kvs := by
  intro kvs prose tagged h hpr
  have hlast : (prose ++
      fenceBlock tagged (render (JValue.jobj kvs))).getLast? = some btC :=
    fenceBlock_getLast tagged
  have hstrip : pyStripL
      (prose ++ fenceBlock tagged (render (JValue.jobj kvs))) =
      prose.dropWhile isPyWs ++
        fenceBlock tagged (render (JValue.jobj kvs)) := by
    rw [pyStripL_last hlast (by decide)]
    refine dropWhile_append_head (fun c hcc => ?_) prose
    have hcb : c = btC := by
      cases tagged <;> exact (by simpa [fenceBlock] using hcc : btC = c).symm
    rw [hcb]
    decide
  have hlast2 : (prose.dropWhile isPyWs ++
      fenceBlock tagged (render (JValue.jobj kvs))).getLast? = some btC :=
    fenceBlock_getLast tagged
  have hloads : json_loads_l (prose.dropWhile isPyWs ++
      fenceBlock tagged (render (JValue.jobj kvs))) = none :=
    loads_bad_end hlast2 (by decide) (by decide)
  have hfence : fenceSearch (prose.dropWhile isPyWs ++
      fenceBlock tagged (render (JValue.jobj kvs))) =
      some (render (JValue.jobj kvs)) := by
    rw [fenceSearch_skip (prose.dropWhile isPyWs) _
      (fun c hcc => hpr c (dropWhile_mem hcc))]
    exact fenceSearch_block tagged h
  simp only [extract_json, hstrip, hloads, hfence, json_loads_render h]

theorem claim_C8_fenced_block_witness :
    extract_json (String.mk ("Here is the JSON: ".data ++
      fenceBlock true (render (JValue.jobj [("tags", JValue.jarr
        [JValue.jstr "a", JValue.jstr "b", JValue.jstr "c"])])))) =
      JValue.jobj [("tags", JValue.jarr
        [JValue.jstr "a", JValue.jstr "b", JValue.jstr "c"])] :=
  claim_C8_fenced_block
    [("tags", JValue.jarr [JValue.jstr "a", JValue.jstr "b", JValue.jstr "c"])]
    "Here is the JSON: ".data true (by decide) (by decide)

end AD
